import Mathlib

/-!
Verification of the AI-stance text-to-sections pipeline.

This file gives a shallow embedding, over `List Char` strings, of the
deterministic core of the repository:

* `src/pdf_utils.py`: `detect_repeated_headers_footers`,
  `remove_headers_footers_and_numbers`, `combine_pages`,
  `chunk_text_for_model`;
* `src/analysis.py`: `parse_json_str`, `_reconcile_sections`,
  `slice_pages_text`, the post-parse part of `ai_analyse_stance`.

Python strings are `List Char`; Python ints are `Int` (arbitrary
precision, no overflow); a Python function that may raise returns
`Option`.  Definitions keep the source names where Lean allows it.
All definitions come first, then the theorems.
-/

namespace AIStance

/-! ## String helpers -/

/-- Python whitespace for `str.strip()` and the regex class `\s`
(ASCII part: space, tab, newline, carriage return, vertical tab,
form feed). -/
def isWsChar (c : Char) : Bool :=
  c = ' ' || c = '\t' || c = '\n' || c = '\r' || c = '\x0b' || c = '\x0c'

/-- Leading-whitespace removal, the left half of `str.strip()`. -/
def trimLeft (l : List Char) : List Char := l.dropWhile isWsChar

/-- Trailing-whitespace removal, the right half of `str.strip()`. -/
def trimRight (l : List Char) : List Char := (l.reverse.dropWhile isWsChar).reverse

/-- Python `str.strip()`: drop leading and trailing whitespace. -/
def pyStrip (l : List Char) : List Char := trimRight (trimLeft l)

/-- Auxiliary scanner for `splitlines`: accumulate the current line
(reversed) and cut at every newline character. -/
def splitlinesGo (acc : List Char) : List Char → List (List Char)
  | [] => [acc.reverse]
  | '\n' :: [] => [acc.reverse]
  | '\n' :: rest => acc.reverse :: splitlinesGo [] rest
  | c :: rest => splitlinesGo (c :: acc) rest

/-- Python `str.splitlines()` restricted to the `'\n'` terminator (the
only one produced by the pipeline): no trailing empty line for a
trailing newline, and `[]` on the empty string. -/
def splitlines : List Char → List (List Char)
  | [] => []
  | l => splitlinesGo [] l

/-- Python `sep.join(parts)`. -/
def pyJoin (sep : List Char) : List (List Char) → List Char
  | [] => []
  | [x] => x
  | x :: rest => x ++ sep ++ pyJoin sep rest

/-- Decimal digit characters, used to print page numbers. -/
def digitChar (d : Nat) : Char :=
  match d with
  | 0 => '0' | 1 => '1' | 2 => '2' | 3 => '3' | 4 => '4'
  | 5 => '5' | 6 => '6' | 7 => '7' | 8 => '8' | _ => '9'

/-- Decimal rendering of a natural number, the embedding of Python
string interpolation of a nonnegative `int`. -/
def natToDigits (n : Nat) : List Char :=
  if _h : n < 10 then [digitChar n]
  else natToDigits (n / 10) ++ [digitChar (n % 10)]
decreasing_by exact Nat.div_lt_self (by omega) (by omega)

/-- Numeric value of a digit string, the embedding of Python `int` on
a string of decimal digits. -/
def digitsToNat (l : List Char) : Nat :=
  l.foldl (fun a c => 10 * a + (c.toNat - 48)) 0

/-- Python `str.lower()` restricted to ASCII case mapping. -/
def pyLower (l : List Char) : List Char := l.map Char.toLower

/-- Scanner for `collapseWs`: `prevWs` records whether the previous
character was whitespace (whose run has already emitted its single
space). -/
def collapseWsGo (prevWs : Bool) : List Char → List Char
  | [] => []
  | c :: rest =>
    if isWsChar c then
      if prevWs then collapseWsGo true rest else ' ' :: collapseWsGo true rest
    else c :: collapseWsGo false rest

/-- Embedding of the regex substitution `re.sub(r"\s+", " ", s)`:
every maximal run of whitespace collapses to a single space. -/
def collapseWs (l : List Char) : List Char := collapseWsGo false l

/-! ## Segmentation reconciler (`_reconcile_sections`, analysis.py 152-198)

An input item is a Python value from a parsed model response.  The
source skips items that are not dicts (`if not isinstance(it, dict):
continue`); an item is therefore `Option Candidate`, `none` standing
for a non-dict.  For a dict item the source only reads
`str(it.get("title", ""))`, `int(it.get("start_page", 1))`,
`int(it.get("end_page", sp))` and `str(it.get("summary", ""))`, so a
dict is embedded by those observations: `title` and `summary` are the
`str(...)` results and `start?`/`end?` are `some n` when the `int`
coercion of a present key succeeds and `none` when the key is absent
or the coercion raises (both cases take the source's default). -/

structure Candidate where
  title : List Char
  start? : Option Int
  end? : Option Int
  summary : List Char

/-- Output sections of the reconciler (dicts with keys `title`,
`start_page`, `end_page`, `summary` in the source). -/
structure SectionDict where
  title : List Char
  start_page : Int
  end_page : Int
  summary : List Char
deriving DecidableEq, Repr

/-- Group record held in the source's `groups` dict: running page
bounds and collected summaries for one normalized title key. -/
structure Group where
  title : List Char
  start_page : Int
  end_page : Int
  summaries : List (List Char)
deriving DecidableEq, Repr

/-- The grouping key of a trimmed title:
`re.sub(r"\s+", " ", title.lower())`. -/
def titleKey (title : List Char) : List Char := collapseWs (pyLower title)

/-- Update of the insertion-ordered `groups` dict for one accepted
candidate: a fresh key is appended at the end, an existing key merges
page bounds (`min` start, `max` end) and appends the non-empty
summary. -/
def updateGroups (key title : List Char) (sp ep : Int) (summary : List Char) :
    List (List Char × Group) → List (List Char × Group)
  | [] => [(key, ⟨title, sp, ep, if summary = [] then [] else [summary]⟩)]
  | (k, g) :: rest =>
    if k = key then
      (k, ⟨g.title, min g.start_page sp, max g.end_page ep,
            if summary = [] then g.summaries else g.summaries ++ [summary]⟩) :: rest
    else (k, g) :: updateGroups key title sp ep summary rest

/-- One iteration of the source's grouping loop: skip non-dicts and
empty trimmed titles, coerce and clamp pages, then update the groups
dict. -/
def insertItem (groups : List (List Char × Group)) (item : Option Candidate) :
    List (List Char × Group) :=
  match item with
  | none => groups
  | some it =>
    let title := pyStrip it.title
    if title = [] then groups
    else
      let sp0 : Int := it.start?.getD 1
      let ep0 : Int := it.end?.getD sp0
      let summary := pyStrip it.summary
      let key := titleKey title
      let sp := max 1 sp0
      let ep := max sp ep0
      updateGroups key title sp ep summary groups

/-- The full grouping pass over the input list. -/
def buildGroups (items : List (Option Candidate)) : List (List Char × Group) :=
  items.foldl insertItem []

/-- Flattening of one group into an output section: summaries are
space-joined and truncated to 1200 characters (`" ".join(...)[:1200]`). -/
def groupToSection (g : Group) : SectionDict :=
  ⟨g.title, g.start_page, g.end_page, (pyJoin [' '] g.summaries).take 1200⟩

/-- Sort key comparison `(x["start_page"], x["end_page"])`,
lexicographic on the pair, as a Boolean total preorder. -/
def keyLe (a b : SectionDict) : Bool :=
  a.start_page < b.start_page ||
    (a.start_page = b.start_page && a.end_page ≤ b.end_page)

/-- Stable insertion into a sorted list: the inserted element goes
after every element that compares `≤` to it, which reproduces the
stable order of Python's `list.sort`. -/
def orderedInsert (x : SectionDict) : List SectionDict → List SectionDict
  | [] => [x]
  | y :: ys => if keyLe y x then y :: orderedInsert x ys else x :: y :: ys

/-- Stable sort by `(start_page, end_page)`; extensionally equal to
`merged.sort(key=lambda x: (x["start_page"], x["end_page"]))` because
a stable sort under a total preorder is unique. -/
def sortSections : List SectionDict → List SectionDict
  | [] => []
  | x :: xs => orderedInsert x (sortSections xs)

/-- The overlap-resolution adjustment of one section against its
(already adjusted) predecessor, source lines 193-197. -/
def fixAgainst (prev cur : SectionDict) : SectionDict :=
  if cur.start_page ≤ prev.end_page then
    let s := prev.end_page + 1
    if s > cur.end_page then ⟨cur.title, s, s, cur.summary⟩
    else ⟨cur.title, s, cur.end_page, cur.summary⟩
  else cur

/-- The left-to-right overlap pass after the first element; the
predecessor passed along is the already adjusted one, exactly as the
source mutates the list in place. -/
def fixLoop (prev : SectionDict) : List SectionDict → List SectionDict
  | [] => []
  | c :: rest =>
    let c' := fixAgainst prev c
    c' :: fixLoop c' rest

/-- The overlap pass over the whole sorted list (`for i in
range(1, len(merged))`): the first element is never modified. -/
def fixOverlaps : List SectionDict → List SectionDict
  | [] => []
  | c :: rest => c :: fixLoop c rest

/-- Embedding of `_reconcile_sections` (analysis.py 152-198): group by
normalized title, flatten, sort by `(start_page, end_page)`, resolve
residual overlaps left to right. -/
def reconcile_sections (items : List (Option Candidate)) : List SectionDict :=
  fixOverlaps (sortSections ((buildGroups items).map (fun kv => groupToSection kv.2)))

/-- Page-bound invariant for one group record. -/
def GroupOk (g : Group) : Prop := 1 ≤ g.start_page ∧ g.start_page ≤ g.end_page

/-- Page-bound invariant for one output section. -/
def SectionOk (s : SectionDict) : Prop := 1 ≤ s.start_page ∧ s.start_page ≤ s.end_page

/-- Coerced and clamped start page of a candidate, source lines
160-163 and 170: `max(1, int(it.get("start_page", 1)))` with the
default taken when the key is absent or the coercion raises. -/
def normStart (c : Candidate) : Int := max 1 (c.start?.getD 1)

/-- Coerced and clamped end page, source lines 164-167 and 171:
`max(sp, int(it.get("end_page", sp)))`. -/
def normEnd (c : Candidate) : Int := max (normStart c) (c.end?.getD (c.start?.getD 1))

/-- Trimmed summary of a candidate, source line 168. -/
def normSummary (c : Candidate) : List Char := pyStrip c.summary

/-- Concrete first candidate for the C5 witness. -/
def c5w1 : Candidate := ⟨['I','n','t','r','o'], some 3, some 5, ['f','i','r','s','t']⟩

/-- Concrete second candidate for the C5 witness: same title up to
case and whitespace, different page span. -/
def c5w2 : Candidate :=
  ⟨[' ', 'I','N','T','R','O', ' '], some 1, some 2, ['s','e','c','o','n','d']⟩

/-- Concrete empty-title candidate for the C8 witness. -/
def c8w : Candidate := ⟨[' ', '\t'], some 3, some 1, ['s']⟩

/-- Concrete well-formed candidate kept alongside the discarded one. -/
def c8keep : Candidate := ⟨['A'], none, none, []⟩

/-! ## Chunker (`chunk_text_for_model`, pdf_utils.py 64-78)

The loop operates on character offsets.  The boundary search
`text.rfind("\n\n", start, end)` returns the highest index `i` with
`start ≤ i ≤ end - 2` such that characters `i, i+1` are both
newlines, or none.  The while loop is embedded with explicit fuel:
`none` from the loop means the fuel ran out (the source loops forever
exactly when no fuel bound suffices; for the default parameters fuel
`length + 1` always suffices, see the C3 theorem). -/

/-- Start offsets of all (possibly overlapping) occurrences of the
two-character pattern `"\n\n"`, in increasing order; `i` is the offset
of the head of the list being scanned. -/
def nnOccs : List Char → Nat → List Nat
  | [], _ => []
  | c :: rest, i =>
    if c = '\n' ∧ rest.head? = some '\n' then i :: nnOccs rest (i + 1)
    else nnOccs rest (i + 1)

/-- Embedding of `text.rfind("\n\n", start, end)`: the highest
occurrence offset `i` with `start ≤ i` and `i + 2 ≤ end`, as an
`Option` (`none` for Python's `-1`). -/
def rfindNN (text : List Char) (s e : Nat) : Option Nat :=
  ((nnOccs text 0).filter (fun i => s ≤ i && i + 2 ≤ e)).getLast?

/-- One boundary decision of the chunker: the found paragraph break,
unless there is none or it lies within the first 30% of the window, in
which case the hard window end is used.  `int(0.3 * target)` equals
`3 * target / 10` in exact arithmetic for the default
`target = 24000` (both are `7200`). -/
def chunkBoundary (text : List Char) (n target : Nat) (start : Nat) : Nat :=
  match rfindNN text start (min (start + target) n) with
  | none => min (start + target) n
  | some b0 => if b0 ≤ start + 3 * target / 10 then min (start + target) n else b0

/-- The chunking loop, producing the `[start, boundary)` span of every
emitted chunk.  Fuel-indexed; `none` means the fuel was exhausted. -/
def chunkSpansLoop (text : List Char) (n target overlap : Nat) :
    Nat → Nat → Option (List (Nat × Nat))
  | 0, _ => none
  | fuel + 1, start =>
    if start < n then
      let b := chunkBoundary text n target start
      if b = n then some [(start, b)]
      else
        match chunkSpansLoop text n target overlap fuel (b - overlap) with
        | none => none
        | some rest => some ((start, b) :: rest)
    else some []

/-- Character spans of the chunks of `chunk_text_for_model`, with fuel
`length + 1` (sufficient for the defaults, see the C3 theorem). -/
def chunkSpans (text : List Char) (target overlap : Nat) : Option (List (Nat × Nat)) :=
  chunkSpansLoop text text.length target overlap (text.length + 1) 0

/-- Embedding of `chunk_text_for_model`: each span is materialized as
the slice `text[start:boundary]`. -/
def chunk_text_for_model (text : List Char) (target overlap : Nat) :
    Option (List (List Char)) :=
  (chunkSpans text target overlap).map
    (List.map (fun sb => ((text.drop sb.1).take (sb.2 - sb.1))))

/-- Page-marker pattern matcher at one position: the exact semantics
of the regex `<<PAGE\s+(\d+)>>` anchored at the start of `l`
(literal `<<PAGE`, then a maximal nonempty whitespace run, then a
maximal nonempty digit run — the captured group — then `>>`); the
greedy maximal runs coincide with the regex semantics because no
backtracking alternative can succeed.  Returns the captured digits and
the remainder after the match. -/
def matchMarkerAt (l : List Char) : Option (List Char × List Char) :=
  if l.take 6 = ['<', '<', 'P', 'A', 'G', 'E'] then
    if (l.drop 6).takeWhile isWsChar = [] then none
    else
      if ((l.drop 6).dropWhile isWsChar).takeWhile Char.isDigit = [] then none
      else
        if (((l.drop 6).dropWhile isWsChar).dropWhile Char.isDigit).take 2 = ['>', '>'] then
          some (((l.drop 6).dropWhile isWsChar).takeWhile Char.isDigit,
            (((l.drop 6).dropWhile isWsChar).dropWhile Char.isDigit).drop 2)
        else none
  else none

/-- One character cannot start a marker match and also be skipped:
`containsMarker` is true when the marker pattern matches at any
position (any suffix) of the text. -/
def containsMarker (l : List Char) : Bool :=
  l.tails.any (fun t => (matchMarkerAt t).isSome)

/-! ## Page combiner and slicer
(`combine_pages`, pdf_utils.py 58-62; `slice_pages_text`,
analysis.py 228-239) -/

/-- Per-page cleaned text, the `PageText` dataclass of the source
(`page_num` is 1-based). -/
structure PageText where
  page_num : Nat
  text : List Char

/-- One page's contribution to the combined text:
`f"<<PAGE {p.page_num}>>\n{p.text}"`. -/
def pageBlock (p : PageText) : List Char :=
  ['<', '<', 'P', 'A', 'G', 'E', ' '] ++ natToDigits p.page_num ++ ['>', '>'] ++ '\n' :: p.text

/-- Embedding of `combine_pages`: page blocks joined by a blank
line. -/
def combine_pages (pages : List PageText) : List Char :=
  pyJoin ['\n', '\n'] (pages.map pageBlock)

/-- Embedding of `re.split(r"<<PAGE\s+(\d+)>>", full_text)`: the text
before the first marker, then for every marker its captured digit
group paired with the text up to the next marker.  The scan is
leftmost and non-overlapping, exactly as `re.split`. -/
def splitMarkers : List Char → List Char × List (List Char × List Char)
  | [] => ([], [])
  | c :: rest =>
    match h : matchMarkerAt (c :: rest) with
    | some (ds, after) =>
      ([], (ds, (splitMarkers after).1) :: (splitMarkers after).2)
    | none => ((c :: (splitMarkers rest).1), (splitMarkers rest).2)
termination_by l => l.length
decreasing_by
  · have hlen : after.length + 10 ≤ (c :: rest).length := by
      unfold matchMarkerAt at h
      by_cases h6 : (c :: rest).take 6 = ['<', '<', 'P', 'A', 'G', 'E']
      · rw [if_pos h6] at h
        by_cases hws : ((c :: rest).drop 6).takeWhile isWsChar = []
        · rw [if_pos hws] at h; cases h
        · rw [if_neg hws] at h
          by_cases hds : (((c :: rest).drop 6).dropWhile isWsChar).takeWhile Char.isDigit = []
          · rw [if_pos hds] at h; cases h
          · rw [if_neg hds] at h
            by_cases h2 : ((((c :: rest).drop 6).dropWhile isWsChar).dropWhile
                Char.isDigit).take 2 = ['>', '>']
            · rw [if_pos h2] at h
              have hafter : after =
                  ((((c :: rest).drop 6).dropWhile isWsChar).dropWhile Char.isDigit).drop 2 := by
                have := h
                simp only [Option.some_inj, Prod.mk.injEq] at this
                exact this.2.symm
              have e1 : (((c :: rest).drop 6).takeWhile isWsChar).length +
                  (((c :: rest).drop 6).dropWhile isWsChar).length =
                  ((c :: rest).drop 6).length := by
                rw [← List.length_append, List.takeWhile_append_dropWhile]
              have e2 : ((((c :: rest).drop 6).dropWhile isWsChar).takeWhile Char.isDigit).length +
                  ((((c :: rest).drop 6).dropWhile isWsChar).dropWhile Char.isDigit).length =
                  (((c :: rest).drop 6).dropWhile isWsChar).length := by
                rw [← List.length_append, List.takeWhile_append_dropWhile]
              have e3 : ((c :: rest).drop 6).length = (c :: rest).length - 6 := by
                rw [List.length_drop]
              have e4 : 6 ≤ (c :: rest).length := by
                have : ((c :: rest).take 6).length = 6 := by rw [h6]; rfl
                rw [List.length_take] at this
                omega
              have e5 : 2 ≤ ((((c :: rest).drop 6).dropWhile isWsChar).dropWhile
                  Char.isDigit).length := by
                have : (((((c :: rest).drop 6).dropWhile isWsChar).dropWhile
                    Char.isDigit).take 2).length = 2 := by rw [h2]; rfl
                rw [List.length_take] at this
                omega
              have e6 : after.length = ((((c :: rest).drop 6).dropWhile isWsChar).dropWhile
                  Char.isDigit).length - 2 := by
                rw [hafter, List.length_drop]
              have e7 : 1 ≤ (((c :: rest).drop 6).takeWhile isWsChar).length := by
                cases hq : ((c :: rest).drop 6).takeWhile isWsChar with
                | nil => exact absurd hq hws
                | cons x xs => simp
              have e8 : 1 ≤ ((((c :: rest).drop 6).dropWhile isWsChar).takeWhile
                  Char.isDigit).length := by
                cases hq : (((c :: rest).drop 6).dropWhile isWsChar).takeWhile Char.isDigit with
                | nil => exact absurd hq hds
                | cons x xs => simp
              omega
            · rw [if_neg h2] at h; cases h
      · rw [if_neg h6] at h; cases h
    simp only [List.length_cons] at hlen ⊢
    omega
  · simp

/-- Embedding of `slice_pages_text` (analysis.py 228-239): split the
combined text on the marker pattern, keep the trimmed text of every
page whose number lies in `[start_page, end_page]`, join with a blank
line. -/
def slice_pages_text (full : List Char) (start_page end_page : Int) : List Char :=
  pyJoin ['\n', '\n']
    ((splitMarkers full).2.filterMap (fun seg =>
      if start_page ≤ (digitsToNat seg.1 : Int) ∧ (digitsToNat seg.1 : Int) ≤ end_page then
        some (pyStrip seg.2)
      else none))

/-- The expected split segments of a combined text: each page yields
its printed number and the raw text that follows its marker (up to the
next marker or the end). -/
def expectedSegs : List PageText → List (List Char × List Char)
  | [] => []
  | [p] => [(natToDigits p.page_num, '\n' :: p.text)]
  | p :: q :: rest =>
    (natToDigits p.page_num, '\n' :: (p.text ++ ['\n', '\n'])) :: expectedSegs (q :: rest)

/-- Concrete pages for the C2 witness. -/
def c2pages : List PageText := [⟨1, ['h', 'i', ' ']⟩, ⟨2, ['y', 'o']⟩, ⟨3, []⟩]

/-! ## JSON values and the response parser
(`parse_json_str`, analysis.py 113-149) -/

/-- JSON values, the result type of parsing a model response. -/
inductive Json where
  | null
  | bool (b : Bool)
  | num (n : Int)
  | str (s : List Char)
  | arr (xs : List Json)
  | obj (kvs : List (List Char × Json))

/-- JSON insignificant whitespace. -/
def jsonWs (c : Char) : Bool := c = ' ' || c = '\t' || c = '\n' || c = '\r'

/-- Skip insignificant whitespace. -/
def skipJsonWs (l : List Char) : List Char := l.dropWhile jsonWs

/-- Python-dict insertion: an existing key keeps its position and gets
the new value, a fresh key is appended. -/
def dictInsert (kvs : List (List Char × Json)) (k : List Char) (v : Json) :
    List (List Char × Json) :=
  match kvs with
  | [] => [(k, v)]
  | (k2, v2) :: rest => if k2 = k then (k2, v) :: rest else (k2, v2) :: dictInsert rest k v

/-- Dict built from parsed members in order (later duplicate keys
overwrite, keeping the first position, as in Python). -/
def buildDict (pairs : List (List Char × Json)) : List (List Char × Json) :=
  pairs.foldl (fun acc kv => dictInsert acc kv.1 kv.2) []

/-- Modelled from the spec: string-literal body parser of Python's
`json.loads` (standard library, not part of this repository), after
the opening quote; handles the single-character escapes, not `\uXXXX`
(inputs in this development use none). -/
def parseJsonString : List Char → Option (List Char × List Char)
  | [] => none
  | c :: rest =>
    if c = '"' then some ([], rest)
    else if c = '\\' then
      match rest with
      | [] => none
      | e :: rest2 =>
        let dec : Option Char :=
          if e = '"' then some '"'
          else if e = '\\' then some '\\'
          else if e = '/' then some '/'
          else if e = 'b' then some '\x08'
          else if e = 'f' then some '\x0c'
          else if e = 'n' then some '\n'
          else if e = 'r' then some '\r'
          else if e = 't' then some '\t'
          else none
        match dec with
        | some d => (parseJsonString rest2).map (fun p => (d :: p.1, p.2))
        | none => none
    else (parseJsonString rest).map (fun p => (c :: p.1, p.2))

/-- Modelled from the spec: integer-literal parser of `json.loads`
(floats are outside the subset used by this pipeline and yield
`none`). -/
def parseJsonNumber (l : List Char) : Option (Json × List Char) :=
  let neg := l.head? = some '-'
  let l1 := if neg then l.tail else l
  let ds := l1.takeWhile Char.isDigit
  let rest := l1.dropWhile Char.isDigit
  if ds = [] then none
  else if rest.head? = some '.' ∨ rest.head? = some 'e' ∨ rest.head? = some 'E' then none
  else some (.num (if neg then -(digitsToNat ds : Int) else (digitsToNat ds : Int)), rest)

mutual

/-- Modelled from the spec: the value parser of Python's `json.loads`
(standard library), fuel-indexed. -/
def parseJsonValue : Nat → List Char → Option (Json × List Char)
  | 0, _ => none
  | fuel + 1, l =>
    match skipJsonWs l with
    | [] => none
    | c :: rest =>
      if c = 'n' then
        match rest with
        | 'u' :: 'l' :: 'l' :: r => some (.null, r)
        | _ => none
      else if c = 't' then
        match rest with
        | 'r' :: 'u' :: 'e' :: r => some (.bool true, r)
        | _ => none
      else if c = 'f' then
        match rest with
        | 'a' :: 'l' :: 's' :: 'e' :: r => some (.bool false, r)
        | _ => none
      else if c = '"' then (parseJsonString rest).map (fun p => (.str p.1, p.2))
      else if c = '[' then
        match skipJsonWs rest with
        | ']' :: r => some (.arr [], r)
        | _ => (parseJsonItems fuel (skipJsonWs rest)).map (fun p => (.arr p.1, p.2))
      else if c = '{' then
        match skipJsonWs rest with
        | '}' :: r => some (.obj [], r)
        | _ => (parseJsonMembers fuel (skipJsonWs rest)).map
            (fun p => (.obj (buildDict p.1), p.2))
      else if c = '-' || c.isDigit then parseJsonNumber (c :: rest)
      else none

/-- Array items: value, then `,` and more items or `]`. -/
def parseJsonItems : Nat → List Char → Option (List Json × List Char)
  | 0, _ => none
  | fuel + 1, l =>
    match parseJsonValue fuel l with
    | none => none
    | some (v, rest) =>
      match skipJsonWs rest with
      | ',' :: r2 => (parseJsonItems fuel r2).map (fun p => (v :: p.1, p.2))
      | ']' :: r2 => some ([v], r2)
      | _ => none

/-- Object members: string key, `:`, value, then `,` and more members
or `}`; returned in textual order. -/
def parseJsonMembers : Nat → List Char → Option (List (List Char × Json) × List Char)
  | 0, _ => none
  | fuel + 1, l =>
    match skipJsonWs l with
    | '"' :: rest =>
      match parseJsonString rest with
      | none => none
      | some (k, r1) =>
        match skipJsonWs r1 with
        | ':' :: r2 =>
          match parseJsonValue fuel r2 with
          | none => none
          | some (v, r3) =>
            match skipJsonWs r3 with
            | ',' :: r4 => (parseJsonMembers fuel r4).map (fun p => ((k, v) :: p.1, p.2))
            | '}' :: r4 => some ([(k, v)], r4)
            | _ => none
        | _ => none
    | _ => none

end

/-- Modelled from the spec: Python's `json.loads` (standard library):
parse one value and require only whitespace after it; `none` stands
for `json.JSONDecodeError`. -/
def loads (l : List Char) : Option Json :=
  match parseJsonValue (l.length + 1) l with
  | some (v, rest) => if skipJsonWs rest = [] then some v else none
  | none => none

/-- The backquote character, written by code so that the source text
of this file contains none. -/
def bq : Char := Char.ofNat 96

/-- Whether the stripped response contains six consecutive backquote
characters: the only thing the source's fence regex `"``````"` (six
literal backquotes, no capture group) can match.  When it matches, the
source immediately calls `m.group(1)`, which raises `IndexError`. -/
def hasSixBackticks (l : List Char) : Bool :=
  l.tails.any (fun t => t.take 6 = [bq, bq, bq, bq, bq, bq])

/-- The balanced-delimiter scan of `parse_json_str` after the first
top-level `[` or `{` has been found (accumulator holds the fragment so
far, reversed): tracks string state with backslash escapes and bracket
depth, and returns the fragment ending where depth returns to zero. -/
def scanIn : List Char → Nat → Bool → Bool → List Char → Option (List Char)
  | [], _, _, _, _ => none
  | c :: rest, depth, instr, esc, acc =>
    if instr then
      if esc then scanIn rest depth true false (c :: acc)
      else if c = '\\' then scanIn rest depth true true (c :: acc)
      else if c = '"' then scanIn rest depth false false (c :: acc)
      else scanIn rest depth true false (c :: acc)
    else
      if c = '"' then scanIn rest depth true false (c :: acc)
      else if c = '[' ∨ c = '{' then scanIn rest (depth + 1) false false (c :: acc)
      else if c = ']' ∨ c = '}' then
        if depth = 1 then some (c :: acc).reverse
        else scanIn rest (depth - 1) false false (c :: acc)
      else scanIn rest depth false false (c :: acc)

/-- Find the first top-level `[` or `{` and scan a balanced fragment
from there; `none` when no balanced fragment completes. -/
def scanFrom : List Char → Option (List Char)
  | [] => none
  | c :: rest => if c = '[' ∨ c = '{' then scanIn rest 1 false false [c] else scanFrom rest

/-- Embedding of `parse_json_str` (analysis.py 113-149): strip, try
the (broken) fence regex — a match means `m.group(1)` raises, embedded
as `none` — then parse the balanced fragment if one exists, else the
whole candidate.  `none` models any raised exception. -/
def parse_json_str (s : List Char) : Option Json :=
  if hasSixBackticks (pyStrip s) then none
  else
    match scanFrom (pyStrip s) with
    | some frag => loads frag
    | none => loads (pyStrip s)

/-! ## Stance analysis post-processing
(`ai_analyse_stance`, analysis.py 242-267) -/

/-- First-match lookup in an object's key-value list. -/
def lookupKey (kvs : List (List Char × Json)) (k : List Char) : Option Json :=
  match kvs with
  | [] => none
  | (k2, v) :: rest => if k2 = k then some v else lookupKey rest k

/-- Whether a lookup produced a JSON array (`isinstance(data[k], list)`
with the key present). -/
def isArr : Option Json → Bool
  | some (Json.arr _) => true
  | _ => false

/-- One default-fill step: `if k not in data or not isinstance(data[k],
list): data[k] = []`. -/
def fillKey (kvs : List (List Char × Json)) (k : List Char) : List (List Char × Json) :=
  if isArr (lookupKey kvs k) then kvs else dictInsert kvs k (Json.arr [])

/-- `data.setdefault(k, v)`. -/
def setDefault (kvs : List (List Char × Json)) (k : List Char) (v : Json) :
    List (List Char × Json) :=
  match lookupKey kvs k with
  | some _ => kvs
  | none => dictInsert kvs k v

/-- The four stance category keys, in source order. -/
def hedgesKey : List Char := ['h', 'e', 'd', 'g', 'e', 's']

/-- Key `"boosters"`. -/
def boostersKey : List Char := ['b', 'o', 'o', 's', 't', 'e', 'r', 's']

/-- Key `"attitude_markers"`. -/
def attitudeKey : List Char :=
  ['a', 't', 't', 'i', 't', 'u', 'd', 'e', '_', 'm', 'a', 'r', 'k', 'e', 'r', 's']

/-- Key `"self_mentions"`. -/
def selfKey : List Char := ['s', 'e', 'l', 'f', '_', 'm', 'e', 'n', 't', 'i', 'o', 'n', 's']

/-- Key `"section"`. -/
def sectionKey : List Char := ['s', 'e', 'c', 't', 'i', 'o', 'n']

/-- Key `"summary"`. -/
def summaryKey : List Char := ['s', 'u', 'm', 'm', 'a', 'r', 'y']

/-- The record returned from the `except` branch of
`ai_analyse_stance`: all four categories empty and a summary noting
the parse failure. -/
def defaultStance (title : List Char) : Json :=
  Json.obj
    [(sectionKey, Json.str title),
     (hedgesKey, Json.arr []),
     (boostersKey, Json.arr []),
     (attitudeKey, Json.arr []),
     (selfKey, Json.arr []),
     (summaryKey, Json.str ['P', 'a', 'r', 's', 'i', 'n', 'g', ' ',
       'f', 'a', 'i', 'l', 'e', 'd'])]

/-- Embedding of `ai_analyse_stance` after the model call: parse the
raw response `out`, default-fill the four category keys and the
`section`/`summary` keys; any exception (parse failure, or indexing a
non-dict value) yields the default record. -/
def ai_analyse_stance (section_title out : List Char) : Json :=
  match parse_json_str out with
  | some (Json.obj kvs) =>
    Json.obj
      (setDefault
        (setDefault
          (fillKey (fillKey (fillKey (fillKey kvs hedgesKey) boostersKey) attitudeKey) selfKey)
          sectionKey (Json.str section_title))
        summaryKey (Json.str []))
  | some _ => defaultStance section_title
  | none => defaultStance section_title

/-- Key-value list of a stance result (always an object). -/
def objKvs : Json → List (List Char × Json)
  | Json.obj kvs => kvs
  | _ => []

/-- Modelled from the spec (C4): "if a fenced code block is present,
use its contents as the search candidate".  Returns the text strictly
between the first pair of triple-backquote fences, with the optional
language tag line after the opening fence dropped. -/
def findTriple : List Char → Option (List Char)
  | [] => none
  | c :: rest =>
    if c = bq ∧ rest.take 2 = [bq, bq] then some (rest.drop 2) else findTriple rest

/-- Text up to (excluding) the next triple-backquote fence. -/
def takeUntilTriple : List Char → Option (List Char)
  | [] => none
  | c :: rest =>
    if c = bq ∧ rest.take 2 = [bq, bq] then some []
    else (takeUntilTriple rest).map (c :: ·)

/-- Modelled from the spec (C4): the contents of the first fenced code
block, if any. -/
def spec_fence_contents (s : List Char) : Option (List Char) :=
  match findTriple s with
  | none => none
  | some afterOpen => takeUntilTriple ((afterOpen.dropWhile (fun c => c != '\n')).drop 1)

/-- The C4 failing input: a response whose prose before the fence
contains a balanced JSON object different from the fenced payload. -/
def c4failing : List Char :=
  "Stats: \x7b\"x\": 2\x7d\n```json\n\x7b\"a\": 1\x7d\n```".toList

/-- Unparsable garbage for the C7 witness. -/
def c7garbage : List Char := ['n', 'o', 't', ' ', 'j', 's', 'o', 'n']

/-! ## Boilerplate detector
(`detect_repeated_headers_footers`, pdf_utils.py 22-35) -/

/-- Stripped non-blank lines of a page:
`[ln.strip() for ln in p.text.splitlines() if ln.strip()]`. -/
def nonblankLines (text : List Char) : List (List Char) :=
  (splitlines text).filterMap (fun ln => if pyStrip ln = [] then none else some (pyStrip ln))

/-- Top signature tallied for a page: the first `n` non-blank lines
joined by a space, skipped entirely when the page has no non-blank
lines (and when the join is empty, which cannot happen for a
non-empty line list). -/
def topSig (n : Nat) (p : PageText) : Option (List Char) :=
  if nonblankLines p.text = [] then none
  else
    if pyJoin [' '] ((nonblankLines p.text).take n) = [] then none
    else some (pyJoin [' '] ((nonblankLines p.text).take n))

/-- Bottom signature tallied for a page: the last `n` non-blank lines
joined by a space when the page has at least `n` of them, else the
empty (untallied) signature — `lines[-n:]` is only taken under
`len(lines) >= bottom_n_lines`. -/
def botSig (n : Nat) (p : PageText) : Option (List Char) :=
  if nonblankLines p.text = [] then none
  else
    if n ≤ (nonblankLines p.text).length then
      if pyJoin [' '] ((nonblankLines p.text).drop ((nonblankLines p.text).length - n)) = []
      then none
      else some (pyJoin [' '] ((nonblankLines p.text).drop ((nonblankLines p.text).length - n)))
    else none

/-- One `Counter` increment: the first matching key's count grows,
a fresh key is appended (insertion order, as in Python). -/
def tallyAdd (counter : List (List Char × Nat)) (s : List Char) : List (List Char × Nat) :=
  match counter with
  | [] => [(s, 1)]
  | (k, c) :: rest => if k = s then (k, c + 1) :: rest else (k, c) :: tallyAdd rest s

/-- The `Counter` of a signature list, in insertion order. -/
def tally (sigs : List (List Char)) : List (List Char × Nat) :=
  sigs.foldl tallyAdd []

/-- Scan for `Counter.most_common(1)`: keep the current best, replace
it only on a strictly greater count (so the earliest-inserted key wins
ties, like the stable descending sort of `most_common`). -/
def mostCommonGo (bs : List Char) (bc : Nat) : List (List Char × Nat) → List Char
  | [] => bs
  | (s, c) :: rest => if bc < c then mostCommonGo s c rest else mostCommonGo bs bc rest

/-- `next(iter(counter.most_common(1)), ("", 0))[0]`: the most common
key, ties broken by insertion order, `""` for an empty counter. -/
def mostCommon1 : List (List Char × Nat) → List Char
  | [] => []
  | (s, c) :: rest => mostCommonGo s c rest

/-- Characters escaped by Python's `re.escape` (3.7+). -/
def reEscapeSpecial (c : Char) : Bool :=
  (['(', ')', '[', ']', '{', '}', '?', '*', '+', '-', '|', '^', '$', '\\', '.', '&', '~',
    '#', ' ', '\t', '\n', '\r', '\x0b', '\x0c'] : List Char).contains c

/-- Embedding of `re.escape`: prefix every special character with a
backslash. -/
def reEscape (l : List Char) : List Char :=
  (l.map (fun c => if reEscapeSpecial c then ['\\', c] else [c])).flatten

/-- The `{"header": ..., "footer": ...}` pattern dict. -/
structure HeaderFooter where
  header : List Char
  footer : List Char
deriving DecidableEq, Repr

/-- Embedding of `detect_repeated_headers_footers`: most frequent top
and bottom signatures (ties to the first encountered), escaped for
literal matching, empty when no page yields a signature. -/
def detect_repeated_headers_footers (pages : List PageText) (top_n bottom_n : Nat) :
    HeaderFooter :=
  ⟨(if mostCommon1 (tally (pages.filterMap (topSig top_n))) = [] then []
    else reEscape (mostCommon1 (tally (pages.filterMap (topSig top_n))))),
   (if mostCommon1 (tally (pages.filterMap (botSig bottom_n))) = [] then []
    else reEscape (mostCommon1 (tally (pages.filterMap (botSig bottom_n)))))⟩

/-- Modelled from the claim (C9): a bottom signature is "the last N
non-blank lines joined by a space", with no minimum-line-count
requirement — `lines[-n:]` of a shorter page is the whole page. -/
def claimBotSig (n : Nat) (p : PageText) : Option (List Char) :=
  if nonblankLines p.text = [] then none
  else
    if pyJoin [' ']
        ((nonblankLines p.text).drop ((nonblankLines p.text).length - n)) = [] then none
    else some (pyJoin [' '] ((nonblankLines p.text).drop ((nonblankLines p.text).length - n)))

/-- One step of first-occurrence collection: append a key unless it
was already seen. -/
def occAdd (acc : List (List Char)) (s : List Char) : List (List Char) :=
  if s ∈ acc then acc else acc ++ [s]

/-- Keys of a signature list in first-encountered order. -/
def firstOccs (sigs : List (List Char)) : List (List Char) :=
  sigs.foldl occAdd []

/-- Pages of the C9 counterexample: two one-line pages and one
two-line page. -/
def c9pages : List PageText := [⟨1, ['x']⟩, ⟨2, ['x']⟩, ⟨3, ['a', '\n', 'b']⟩]

/-! ## Cleaner
(`remove_headers_footers_and_numbers`, pdf_utils.py 37-56) -/

/-- Roman-numeral letters of the page-number regex character class
`[ivxlcdmIVXLCDM]`. -/
def isRomanChar (c : Char) : Bool :=
  (['i', 'v', 'x', 'l', 'c', 'd', 'm', 'I', 'V', 'X', 'L', 'C', 'D', 'M'] : List Char).contains c

/-- Embedding of `page_num_re.match(s)` for the stripped line `s` (the
only call site): the regex `^\s*(\d+|[ivxlcdmIVXLCDM]+)\s*$` matches a
string without surrounding whitespace exactly when it is a nonempty
run of digits or a nonempty run of Roman-numeral letters (interior
whitespace defeats the match). -/
def page_num_line (s : List Char) : Bool :=
  decide (¬ s = []) && (s.all Char.isDigit || s.all isRomanChar)

/-- Removal of a backslash escape, recovering the literal candidate
that an `re.escape`d pattern matches. -/
def reUnescape : List Char → List Char
  | [] => []
  | '\\' :: c :: rest => c :: reUnescape rest
  | c :: rest => c :: reUnescape rest

/-- Semantics of `re.search` for an `re.escape`d literal pattern
compiled with `re.IGNORECASE`: case-insensitive containment of the
unescaped candidate. -/
def searchCI (escapedPat s : List Char) : Bool :=
  s.tails.any (fun t =>
    (t.take (reUnescape escapedPat).length).map Char.toLower
      = (reUnescape escapedPat).map Char.toLower)

/-- The keep test of the cleaner's line loop: blank lines, lines
matching the header or footer pattern, and standalone page-number
lines are dropped. -/
def keepLine (patterns : HeaderFooter) (ln : List Char) : Bool :=
  if pyStrip ln = [] then false
  else if decide (¬ patterns.header = []) && searchCI patterns.header (pyStrip ln) then false
  else if decide (¬ patterns.footer = []) && searchCI patterns.footer (pyStrip ln) then false
  else !(page_num_line (pyStrip ln))

/-- Embedding of `remove_headers_footers_and_numbers`: filter every
page's lines by `keepLine` and rejoin with newlines. -/
def remove_headers_footers_and_numbers (pages : List PageText) (patterns : HeaderFooter) :
    List PageText :=
  pages.map (fun p =>
    ⟨p.page_num, pyJoin ['\n'] ((splitlines p.text).filter (keepLine patterns))⟩)

/-- Text of the C3 counterexample: 7300 characters with a single
paragraph break at offset 7250. -/
def txtC3 : List Char := List.replicate 7250 'a' ++ '\n' :: '\n' :: List.replicate 48 'a'

/-- Text of the C6 counterexample: 24006 characters with no paragraph
break and a page marker token spanning offsets 23995-24004. -/
def txtC6 : List Char :=
  List.replicate 23995 'a' ++ ['<', '<', 'P', 'A', 'G', 'E', ' ', '1', '>', '>', 'a']

/-- Small text for the C6 witness. -/
def txtC6w : List Char := ['a', 'b', '\n', '\n', 'c', 'd']

/-! # Theorems -/

/-- Dropping a while-prefix never lengthens a list. -/
theorem dropWhileLenLe {α : Type} (p : α → Bool) (l : List α) :
    (l.dropWhile p).length ≤ l.length := by
  induction l with
  | nil => simp
  | cons c rest ih =>
    by_cases h : p c
    · simpa [List.dropWhile, h] using Nat.le_succ_of_le ih
    · simp [List.dropWhile, h]

theorem insertItem_none (gs : List (List Char × Group)) : insertItem gs none = gs := rfl

theorem insertItem_some (gs : List (List Char × Group)) (it : Candidate) :
    insertItem gs (some it) =
      if pyStrip it.title = [] then gs
      else
        updateGroups (titleKey (pyStrip it.title)) (pyStrip it.title)
          (max 1 (it.start?.getD 1))
          (max (max 1 (it.start?.getD 1)) (it.end?.getD (it.start?.getD 1)))
          (pyStrip it.summary) gs := rfl

theorem updateGroups_ok (key title : List Char) (sp ep : Int) (summary : List Char)
    (gs : List (List Char × Group)) (hgs : ∀ kg ∈ gs, GroupOk kg.2)
    (hsp : 1 ≤ sp) (hep : sp ≤ ep) :
    ∀ kg ∈ updateGroups key title sp ep summary gs, GroupOk kg.2 := by
  induction gs with
  | nil =>
    intro kg hkg
    simp only [updateGroups, List.mem_singleton] at hkg
    subst hkg
    exact ⟨hsp, hep⟩
  | cons hd tl ih =>
    intro kg hkg
    obtain ⟨k, g⟩ := hd
    have hg : GroupOk g := hgs (k, g) (by simp)
    have htl : ∀ kg ∈ tl, GroupOk kg.2 := fun x hx => hgs x (by simp [hx])
    by_cases hk : k = key
    · simp only [updateGroups, hk, if_pos rfl] at hkg
      rcases List.mem_cons.mp hkg with h | h
      · subst h
        refine ⟨le_min hg.1 hsp, ?_⟩
        calc min g.start_page sp ≤ g.start_page := min_le_left _ _
          _ ≤ g.end_page := hg.2
          _ ≤ max g.end_page ep := le_max_left _ _
      · exact htl kg h
    · simp only [updateGroups, if_neg hk] at hkg
      rcases List.mem_cons.mp hkg with h | h
      · subst h; exact hg
      · exact ih htl kg h

theorem insertItem_ok (gs : List (List Char × Group)) (item : Option Candidate)
    (hgs : ∀ kg ∈ gs, GroupOk kg.2) :
    ∀ kg ∈ insertItem gs item, GroupOk kg.2 := by
  match item with
  | none => exact hgs
  | some it =>
    rw [insertItem_some]
    by_cases ht : pyStrip it.title = []
    · rw [if_pos ht]; exact hgs
    · rw [if_neg ht]
      exact updateGroups_ok _ _ _ _ _ _ hgs (le_max_left _ _) (le_max_left _ _)

theorem buildGroups_ok (items : List (Option Candidate)) :
    ∀ kg ∈ buildGroups items, GroupOk kg.2 := by
  have main : ∀ (l : List (Option Candidate)) (acc : List (List Char × Group)),
      (∀ kg ∈ acc, GroupOk kg.2) → ∀ kg ∈ l.foldl insertItem acc, GroupOk kg.2 := by
    intro l
    induction l with
    | nil => intro acc hacc; exact hacc
    | cons hd tl ih =>
      intro acc hacc
      exact ih (insertItem acc hd) (insertItem_ok acc hd hacc)
  exact main items [] (by intro kg hkg; cases hkg)

theorem mem_orderedInsert (x a : SectionDict) (l : List SectionDict) :
    a ∈ orderedInsert x l ↔ a = x ∨ a ∈ l := by
  induction l with
  | nil => simp [orderedInsert]
  | cons y ys ih =>
    by_cases h : keyLe y x
    · simp only [orderedInsert, if_pos h, List.mem_cons, ih]
      tauto
    · simp only [orderedInsert, if_neg h, List.mem_cons]

theorem mem_sortSections (a : SectionDict) (l : List SectionDict) :
    a ∈ sortSections l ↔ a ∈ l := by
  induction l with
  | nil => simp [sortSections]
  | cons y ys ih =>
    simp only [sortSections, mem_orderedInsert, List.mem_cons, ih]

theorem fixAgainst_ok (prev c : SectionDict) (hprev : SectionOk prev) (hc : SectionOk c) :
    SectionOk (fixAgainst prev c) ∧ prev.end_page < (fixAgainst prev c).start_page := by
  unfold fixAgainst SectionOk at *
  by_cases h : c.start_page ≤ prev.end_page
  · by_cases h2 : prev.end_page + 1 > c.end_page
    · simp only [if_pos h, if_pos h2]
      constructor
      · constructor <;> omega
      · omega
    · simp only [if_pos h, if_neg h2]
      constructor
      · constructor <;> omega
      · omega
  · simp only [if_neg h]
    exact ⟨hc, by omega⟩

theorem fixLoop_ok (l : List SectionDict) :
    ∀ prev : SectionDict, SectionOk prev → (∀ s ∈ l, SectionOk s) →
    (∀ s ∈ fixLoop prev l, SectionOk s) ∧
      List.Chain' (fun a b => a.end_page < b.start_page) (prev :: fixLoop prev l) := by
  induction l with
  | nil => intro prev _ _; simp [fixLoop]
  | cons c rest ih =>
    intro prev hprev hl
    have hc : SectionOk c := hl c (by simp)
    have hrest : ∀ s ∈ rest, SectionOk s := fun s hs => hl s (by simp [hs])
    obtain ⟨hfix, hlt⟩ := fixAgainst_ok prev c hprev hc
    obtain ⟨ihok, ihchain⟩ := ih (fixAgainst prev c) hfix hrest
    refine ⟨?_, ?_⟩
    · intro s hs
      simp only [fixLoop, List.mem_cons] at hs
      rcases hs with h | h
      · subst h; exact hfix
      · exact ihok s h
    · simp only [fixLoop]
      exact List.chain'_cons.mpr ⟨hlt, ihchain⟩

theorem fixOverlaps_ok (l : List SectionDict) (hl : ∀ s ∈ l, SectionOk s) :
    (∀ s ∈ fixOverlaps l, SectionOk s) ∧
      List.Chain' (fun a b => a.end_page < b.start_page) (fixOverlaps l) := by
  match l with
  | [] => simp [fixOverlaps]
  | c :: rest =>
    have hc : SectionOk c := hl c (by simp)
    have hrest : ∀ s ∈ rest, SectionOk s := fun s hs => hl s (by simp [hs])
    obtain ⟨hok, hchain⟩ := fixLoop_ok rest c hc hrest
    refine ⟨?_, ?_⟩
    · intro s hs
      simp only [fixOverlaps, List.mem_cons] at hs
      rcases hs with h | h
      · subst h; exact hc
      · exact hok s h
    · simpa [fixOverlaps] using hchain

/-- Adjacent chains can be strengthened using a membership invariant. -/
theorem chain'_strengthen {α : Type} {R S : α → α → Prop} {P : α → Prop} :
    ∀ (l : List α), List.Chain' R l → (∀ x ∈ l, P x) →
    (∀ a b, P a → P b → R a b → S a b) → List.Chain' S l
  | [] => by simp
  | [a] => by simp
  | a :: b :: t => by
    intro h hp imp
    rw [List.chain'_cons] at h ⊢
    refine ⟨imp a b (hp a (by simp)) (hp b (by simp)) h.1, ?_⟩
    exact chain'_strengthen (b :: t) h.2 (fun x hx => hp x (by simp [List.mem_cons] at hx ⊢; tauto)) imp

/-- C1: for every input list of section-candidate dictionaries (of any
shape), the output of `_reconcile_sections` is a list of sections each
satisfying `1 ≤ start_page ≤ end_page`, sorted ascending by
`(start_page, end_page)`, and every adjacent pair satisfies
`output[i+1].start_page > output[i].end_page`. -/
theorem C1_reconcile_invariants (items : List (Option Candidate)) :
    (∀ s ∈ reconcile_sections items, 1 ≤ s.start_page ∧ s.start_page ≤ s.end_page) ∧
    List.Chain' (fun a b => a.start_page < b.start_page ∨
      (a.start_page = b.start_page ∧ a.end_page ≤ b.end_page)) (reconcile_sections items) ∧
    List.Chain' (fun a b => a.end_page < b.start_page) (reconcile_sections items) := by
  have hsecs : ∀ s ∈ sortSections ((buildGroups items).map (fun kv => groupToSection kv.2)),
      SectionOk s := by
    intro s hs
    rw [mem_sortSections] at hs
    obtain ⟨kv, hkv, rfl⟩ := List.mem_map.mp hs
    exact buildGroups_ok items kv hkv
  obtain ⟨hok, hchain⟩ := fixOverlaps_ok _ hsecs
  exact ⟨hok, chain'_strengthen _ hchain hok
    (fun a b pa pb r => Or.inl (by unfold SectionOk at pa pb; omega)), hchain⟩

/-- C5: two candidates with the same normalized title merge into a
single Section with the minimum observed (normalized) start page, the
maximum observed (normalized) end page, and the space-joined
concatenation of the non-empty (trimmed) summaries truncated to 1200
characters. -/
theorem C5_merge (c1 c2 : Candidate) (h1 : pyStrip c1.title ≠ []) (h2 : pyStrip c2.title ≠ [])
    (hk : titleKey (pyStrip c1.title) = titleKey (pyStrip c2.title)) :
    reconcile_sections [some c1, some c2] =
      [⟨pyStrip c1.title, min (normStart c1) (normStart c2), max (normEnd c1) (normEnd c2),
        (pyJoin [' ']
          (([normSummary c1, normSummary c2].filter (fun s => !(s = [] : Bool))))).take 1200⟩] := by
  have e0 : insertItem [] (some c1) =
      [(titleKey (pyStrip c1.title),
        ⟨pyStrip c1.title, normStart c1, normEnd c1,
         if normSummary c1 = [] then [] else [normSummary c1]⟩)] := by
    rw [insertItem_some, if_neg h1]; rfl
  have e1 : buildGroups [some c1, some c2] =
      [(titleKey (pyStrip c1.title),
        ⟨pyStrip c1.title, min (normStart c1) (normStart c2), max (normEnd c1) (normEnd c2),
         [normSummary c1, normSummary c2].filter (fun s => !(s = [] : Bool))⟩)] := by
    show insertItem (insertItem [] (some c1)) (some c2) = _
    rw [e0, insertItem_some, if_neg h2, updateGroups, if_pos hk]
    by_cases hs1 : pyStrip c1.summary = [] <;> by_cases hs2 : pyStrip c2.summary = [] <;>
      simp [hs1, hs2, normStart, normEnd, normSummary]
  unfold reconcile_sections
  rw [e1]
  rfl

theorem C5_merge_witness :
    reconcile_sections [some c5w1, some c5w2] =
      [⟨['I','n','t','r','o'], 1, 5, ['f','i','r','s','t',' ','s','e','c','o','n','d']⟩] :=
  (C5_merge c5w1 c5w2 (by decide) (by decide) (by decide)).trans (by decide)

/-- C8: candidate normalization.  Start and end pages are coerced to
positive integers with the documented defaults, the result satisfies
`1 ≤ start_page ≤ end_page` (clamping raises `end_page` to
`start_page` when needed), and a candidate whose trimmed title is
empty is discarded: it contributes nothing to the output. -/
theorem C8_normalization (pre post : List (Option Candidate)) (c : Candidate) :
    (pyStrip c.title = [] →
      reconcile_sections (pre ++ some c :: post) = reconcile_sections (pre ++ post)) ∧
    (pyStrip c.title ≠ [] →
      reconcile_sections [some c] =
        [⟨pyStrip c.title, normStart c, normEnd c, (pyStrip c.summary).take 1200⟩]) ∧
    (1 ≤ normStart c ∧ normStart c ≤ normEnd c) ∧
    (c.start? = none → normStart c = 1) ∧
    (c.end? = none → normEnd c = normStart c) := by
  refine ⟨?_, ?_, ⟨le_max_left _ _, le_max_left _ _⟩, ?_, ?_⟩
  · intro ht
    unfold reconcile_sections buildGroups
    rw [List.foldl_append, List.foldl_append, List.foldl_cons, insertItem_some, if_pos ht]
  · intro ht
    unfold reconcile_sections buildGroups
    rw [List.foldl_cons, List.foldl_nil, insertItem_some, if_neg ht]
    show fixOverlaps (sortSections (List.map _ (updateGroups _ _ _ _ _ []))) = _
    rw [updateGroups]
    by_cases hs : pyStrip c.summary = [] <;>
      simp [hs, groupToSection, sortSections, orderedInsert, fixOverlaps, fixLoop, pyJoin,
        normStart, normEnd]
  · intro h; simp [normStart, h]
  · intro h; simp [normEnd, normStart, h]

theorem C8_normalization_witness :
    reconcile_sections [some c8keep, some c8w] = reconcile_sections [some c8keep] :=
  (C8_normalization [some c8keep] [] c8w).1 (by decide)

/-! ## Chunker theorems -/

theorem nnOccs_mem (l : List Char) : ∀ j i, i ∈ nnOccs l j →
    j ≤ i ∧ (l.drop (i - j)).take 2 = ['\n', '\n'] := by
  induction l with
  | nil => intro j i h; simp [nnOccs] at h
  | cons c rest ih =>
    intro j i h
    simp only [nnOccs] at h
    by_cases hcond : c = '\n' ∧ rest.head? = some '\n'
    · rw [if_pos hcond] at h
      rcases List.mem_cons.mp h with rfl | h2
      · obtain ⟨hc, hh⟩ := hcond
        subst hc
        cases rest with
        | nil => simp at hh
        | cons c2 r2 =>
          simp only [List.head?_cons, Option.some_inj] at hh
          subst hh
          simp
      · obtain ⟨hle, hdrop⟩ := ih (j + 1) i h2
        refine ⟨by omega, ?_⟩
        have he : i - j = (i - (j + 1)) + 1 := by omega
        rw [he, List.drop_succ_cons]
        exact hdrop
    · rw [if_neg hcond] at h
      obtain ⟨hle, hdrop⟩ := ih (j + 1) i h
      refine ⟨by omega, ?_⟩
      have he : i - j = (i - (j + 1)) + 1 := by omega
      rw [he, List.drop_succ_cons]
      exact hdrop

theorem rfindNN_some (text : List Char) (s e b0 : Nat) (h : rfindNN text s e = some b0) :
    s ≤ b0 ∧ b0 + 2 ≤ e ∧ (text.drop b0).take 2 = ['\n', '\n'] := by
  unfold rfindNN at h
  have hmem : b0 ∈ (nnOccs text 0).filter (fun i => s ≤ i && i + 2 ≤ e) := by
    obtain ⟨hne, heq⟩ := List.mem_getLast?_eq_getLast (x := b0) h
    rw [heq]
    exact List.getLast_mem hne
  obtain ⟨hocc, hcond⟩ := List.mem_filter.mp hmem
  simp only [Bool.and_eq_true, decide_eq_true_eq] at hcond
  obtain ⟨_, hdrop⟩ := nnOccs_mem text 0 b0 hocc
  refine ⟨hcond.1, hcond.2, ?_⟩
  simpa using hdrop

theorem chunkBoundary_cases (text : List Char) (n target start : Nat) :
    chunkBoundary text n target start = min (start + target) n ∨
    ((text.drop (chunkBoundary text n target start)).take 2 = ['\n', '\n'] ∧
      start + 3 * target / 10 < chunkBoundary text n target start ∧
      chunkBoundary text n target start + 2 ≤ min (start + target) n) := by
  cases hr : rfindNN text start (min (start + target) n) with
  | none => left; simp only [chunkBoundary, hr]
  | some b0 =>
    obtain ⟨hs, he, hocc⟩ := rfindNN_some text start (min (start + target) n) b0 hr
    by_cases hb : b0 ≤ start + 3 * target / 10
    · left; simp only [chunkBoundary, hr, if_pos hb]
    · right
      simp only [chunkBoundary, hr, if_neg hb]
      exact ⟨hocc, by omega, he⟩

theorem chunkSpansLoop_boundary_shape (text : List Char) (n target overlap : Nat) :
    ∀ fuel start l, chunkSpansLoop text n target overlap fuel start = some l →
    ∀ sb ∈ l, (text.drop sb.2).take 2 = ['\n', '\n'] ∨ sb.2 = min (sb.1 + target) n := by
  intro fuel
  induction fuel with
  | zero => intro start l h; cases h
  | succ fuel ih =>
    intro start l h
    rw [chunkSpansLoop] at h
    by_cases hs : start < n
    · rw [if_pos hs] at h
      by_cases hb : chunkBoundary text n target start = n
      · rw [if_pos hb] at h
        obtain rfl : [(start, chunkBoundary text n target start)] = l := by
          simpa using h
        intro sb hsb
        simp only [List.mem_singleton] at hsb
        subst hsb
        rcases chunkBoundary_cases text n target start with hc | hc
        · exact Or.inr hc
        · exact Or.inl hc.1
      · rw [if_neg hb] at h
        cases hrec : chunkSpansLoop text n target overlap fuel
            (chunkBoundary text n target start - overlap) with
        | none => rw [hrec] at h; cases h
        | some rest =>
          rw [hrec] at h
          obtain rfl : (start, chunkBoundary text n target start) :: rest = l := by
            simpa using h
          intro sb hsb
          rcases List.mem_cons.mp hsb with rfl | h2
          · rcases chunkBoundary_cases text n target start with hc | hc
            · exact Or.inr hc
            · exact Or.inl hc.1
          · exact ih _ rest hrec sb h2
    · rw [if_neg hs] at h
      obtain rfl : ([] : List (Nat × Nat)) = l := by simpa using h
      intro sb hsb
      cases hsb

theorem nnOccs_cons_ne (c : Char) (l : List Char) (j : Nat) (hc : ¬ c = '\n') :
    nnOccs (c :: l) j = nnOccs l (j + 1) := by
  simp [nnOccs, hc]

theorem nnOccs_nil_of_ne (l : List Char) (hl : ∀ c ∈ l, ¬ c = '\n') :
    ∀ j, nnOccs l j = [] := by
  induction l with
  | nil => intro j; rfl
  | cons c t ih =>
    intro j
    rw [nnOccs_cons_ne c t j (hl c (by simp))]
    exact ih (fun x hx => hl x (by simp [hx])) (j + 1)

theorem nnOccs_append_ne (l rest : List Char) (hl : ∀ c ∈ l, ¬ c = '\n') :
    ∀ j, nnOccs (l ++ rest) j = nnOccs rest (j + l.length) := by
  induction l with
  | nil => intro j; simp
  | cons c t ih =>
    intro j
    rw [List.cons_append, nnOccs_cons_ne c (t ++ rest) j (hl c (by simp)),
      ih (fun x hx => hl x (by simp [hx])) (j + 1)]
    congr 1
    simp
    omega

theorem head?_replicate (n : Nat) (a : Char) :
    (List.replicate n a).head? = if n = 0 then none else some a := by
  cases n <;> simp [List.replicate_succ]

/-- Amended C6: every boundary chosen by the chunker is either the
offset of a paragraph break (an occurrence of `"\n\n"`) or the hard
window end `min(start + target, length)`; the hard fallback makes no
attempt to avoid page-marker tokens, see the counterexample. -/
theorem C6_boundary_amended (text : List Char) (target overlap : Nat)
    (spans : List (Nat × Nat)) (h : chunkSpans text target overlap = some spans) :
    ∀ sb ∈ spans,
      (text.drop sb.2).take 2 = ['\n', '\n'] ∨ sb.2 = min (sb.1 + target) text.length :=
  chunkSpansLoop_boundary_shape text text.length target overlap (text.length + 1) 0 spans h

theorem C6_boundary_amended_witness :
    ((txtC6w.drop 6).take 2 = ['\n', '\n']) ∨ (6 = min (0 + 24000) txtC6w.length) :=
  C6_boundary_amended txtC6w 24000 1200 [(0, 6)] (by decide) (0, 6) (by decide)

/-- One unfolding step of the chunk loop for nonzero fuel, stated
without the successor pattern so that it can be applied at numeral
fuel values. -/
theorem chunkSpansLoop_pos (text : List Char) (n target overlap fuel start : Nat)
    (hf : fuel ≠ 0) :
    chunkSpansLoop text n target overlap fuel start =
      if start < n then
        if chunkBoundary text n target start = n then
          some [(start, chunkBoundary text n target start)]
        else
          match chunkSpansLoop text n target overlap (fuel - 1)
              (chunkBoundary text n target start - overlap) with
          | none => none
          | some rest => some ((start, chunkBoundary text n target start) :: rest)
      else some [] := by
  cases fuel with
  | zero => exact absurd rfl hf
  | succ f => rfl

/-- C6 counterexample: on a 24006-character text with no paragraph
break, the first chunk boundary is the hard offset 24000, which falls
strictly inside the page marker token `<<PAGE 1>>` occupying offsets
23995-24004; the claim that a boundary never falls inside a page
marker is therefore false. -/
theorem C6_counterexample :
    chunkSpans txtC6 24000 1200 = some [(0, 24000), (22800, 24006)] ∧
    matchMarkerAt (txtC6.drop 23995) = some (['1'], ['a']) ∧
    23995 < 24000 ∧ 24000 < 23995 + 10 := by
  have hne : ∀ c ∈ txtC6, ¬ c = '\n' := by
    intro c hc
    unfold txtC6 at hc
    rcases List.mem_append.mp hc with h | h
    · rw [List.eq_of_mem_replicate h]; decide
    · fin_cases h <;> decide
  have hocc : nnOccs txtC6 0 = [] := nnOccs_nil_of_ne txtC6 hne 0
  have hrf : ∀ s e, rfindNN txtC6 s e = none := by
    intro s e; unfold rfindNN; rw [hocc]; rfl
  have hlen : txtC6.length = 24006 := by
    unfold txtC6
    rw [List.length_append, List.length_replicate]
    rfl
  have hb0 : chunkBoundary txtC6 24006 24000 0 = 24000 := by
    simp only [chunkBoundary, hrf]
    omega
  have hb1 : chunkBoundary txtC6 24006 24000 22800 = 24006 := by
    simp only [chunkBoundary, hrf]
    omega
  have inner : chunkSpansLoop txtC6 24006 24000 1200 (24006 + 1 - 1) (24000 - 1200) =
      some [(22800, 24006)] := by
    rw [show (24006 + 1 - 1 : Nat) = 24006 from rfl, show (24000 - 1200 : Nat) = 22800 from rfl]
    rw [chunkSpansLoop_pos _ _ _ _ _ _ (by norm_num)]
    rw [if_pos (by norm_num : (22800 : Nat) < 24006), hb1, if_pos rfl]
  have main : chunkSpansLoop txtC6 24006 24000 1200 (24006 + 1) 0 =
      some [(0, 24000), (22800, 24006)] := by
    rw [chunkSpansLoop_pos _ _ _ _ _ _ (by norm_num)]
    rw [if_pos (by norm_num : (0 : Nat) < 24006), hb0]
    rw [if_neg (by norm_num : ¬ (24000 : Nat) = 24006)]
    rw [inner]
  refine ⟨?_, ?_, by norm_num, by norm_num⟩
  · unfold chunkSpans
    rw [hlen]
    exact main
  · have hdrop : txtC6.drop 23995 = ['<', '<', 'P', 'A', 'G', 'E', ' ', '1', '>', '>', 'a'] := by
      unfold txtC6
      exact List.drop_left' (by rw [List.length_replicate])
    rw [hdrop]
    decide

/-- Progress and termination of the chunking loop at the default
parameters: every boundary exceeds its start by more than
`int(0.3 * 24000) = 7200`, so fuel `length + 1` never runs out, and
each emitted chunk advances the start offset by at least 6001. -/
theorem chunkSpansLoop_total (text : List Char) :
    ∀ fuel start, text.length - start < fuel →
    ∃ l, chunkSpansLoop text text.length 24000 1200 fuel start = some l ∧
      l.length * 6001 ≤ (text.length - start) + 6000 := by
  intro fuel
  induction fuel with
  | zero => intro start h; omega
  | succ fuel ih =>
    intro start h
    rw [chunkSpansLoop]
    by_cases hs : start < text.length
    · rw [if_pos hs]
      by_cases hb : chunkBoundary text text.length 24000 start = text.length
      · rw [if_pos hb]
        refine ⟨[(start, chunkBoundary text text.length 24000 start)], rfl, ?_⟩
        simp only [List.length_singleton]
        omega
      · rw [if_neg hb]
        have hprog : start + 7201 ≤ chunkBoundary text text.length 24000 start ∧
            chunkBoundary text text.length 24000 start ≤ text.length := by
          rcases chunkBoundary_cases text text.length 24000 start with hc | hc
          · constructor
            · rw [hc]; omega
            · rw [hc]; omega
          · have h7200 : 3 * 24000 / 10 = 7200 := by norm_num
            rw [h7200] at hc
            omega
        obtain ⟨l, hl, hlen⟩ := ih (chunkBoundary text text.length 24000 start - 1200)
          (by omega)
        rw [hl]
        refine ⟨(start, chunkBoundary text text.length 24000 start) :: l, rfl, ?_⟩
        simp only [List.length_cons]
        omega
    · rw [if_neg hs]
      exact ⟨[], rfl, by simp⟩

/-- Amended C3: at the default parameters (`target = 24000`,
`overlap = 1200`) the chunker terminates on every input, and the chunk
count is at most `ceil(length / 6001)` where
`6001 = int(0.3 * target) + 1 - overlap`; the originally claimed bound
`ceil(length / (target - overlap))` is refuted by the counterexample. -/
theorem C3_termination_amended (text : List Char) :
    ∃ cs, chunk_text_for_model text 24000 1200 = some cs ∧
      cs.length ≤ (text.length + 6000) / 6001 := by
  obtain ⟨l, hl, hlen⟩ := chunkSpansLoop_total text (text.length + 1) 0 (by omega)
  refine ⟨l.map (fun sb => (text.drop sb.1).take (sb.2 - sb.1)), ?_, ?_⟩
  · unfold chunk_text_for_model chunkSpans
    rw [hl]
    rfl
  · rw [List.length_map]
    rw [Nat.le_div_iff_mul_le (by omega)]
    omega

/-! ## Combiner and slicer theorems -/

theorem digit_not_ws (c : Char) (h : c.isDigit = true) : isWsChar c = false := by
  by_contra hws
  rw [Bool.not_eq_false] at hws
  unfold isWsChar at hws
  simp only [Bool.or_eq_true, decide_eq_true_eq] at hws
  rcases hws with ((((rfl | rfl) | rfl) | rfl) | rfl) | rfl <;> simp [Char.isDigit] at h

theorem digitChar_isDigit (d : Nat) : (digitChar d).isDigit = true := by
  unfold digitChar
  rcases d with _ | _ | _ | _ | _ | _ | _ | _ | _ | d <;> rfl

theorem digitChar_toNat (d : Nat) (hd : d < 10) : (digitChar d).toNat - 48 = d := by
  unfold digitChar
  interval_cases d <;> rfl

theorem natToDigits_ne_nil (n : Nat) : natToDigits n ≠ [] := by
  rw [natToDigits]
  by_cases h : n < 10
  · rw [dif_pos h]; simp
  · rw [dif_neg h]; simp

theorem natToDigits_all_digit (n : Nat) : ∀ c ∈ natToDigits n, c.isDigit = true := by
  induction n using Nat.strong_induction_on with
  | _ n ih =>
    rw [natToDigits]
    by_cases h : n < 10
    · rw [dif_pos h]
      intro c hc
      rw [List.mem_singleton] at hc
      subst hc
      exact digitChar_isDigit n
    · rw [dif_neg h]
      intro c hc
      rcases List.mem_append.mp hc with h1 | h1
      · exact ih (n / 10) (Nat.div_lt_self (by omega) (by omega)) c h1
      · rw [List.mem_singleton] at h1
        subst h1
        exact digitChar_isDigit (n % 10)

theorem digitsToNat_append_one (l : List Char) (c : Char) :
    digitsToNat (l ++ [c]) = 10 * digitsToNat l + (c.toNat - 48) := by
  unfold digitsToNat
  rw [List.foldl_append]
  rfl

theorem digitsToNat_natToDigits (n : Nat) : digitsToNat (natToDigits n) = n := by
  induction n using Nat.strong_induction_on with
  | _ n ih =>
    rw [natToDigits]
    by_cases h : n < 10
    · rw [dif_pos h]
      show digitsToNat ([] ++ [digitChar n]) = n
      rw [digitsToNat_append_one, digitChar_toNat n h]
      show 10 * 0 + n = n
      omega
    · rw [dif_neg h]
      rw [digitsToNat_append_one, ih (n / 10) (Nat.div_lt_self (by omega) (by omega)),
        digitChar_toNat (n % 10) (Nat.mod_lt n (by omega))]
      omega

theorem takeWhile_append_stop (p : Char → Bool) (l1 : List Char) (c : Char) (l2 : List Char)
    (hc : p c = false) : ((l1 ++ c :: l2).takeWhile p) = l1.takeWhile p := by
  induction l1 with
  | nil => simp [List.takeWhile_cons_of_neg, hc]
  | cons a t ih =>
    by_cases ha : p a
    · rw [List.cons_append, List.takeWhile_cons_of_pos ha, List.takeWhile_cons_of_pos ha, ih]
    · rw [List.cons_append, List.takeWhile_cons_of_neg ha, List.takeWhile_cons_of_neg ha]

theorem dropWhile_append_stop (p : Char → Bool) (l1 : List Char) (c : Char) (l2 : List Char)
    (hc : p c = false) : ((l1 ++ c :: l2).dropWhile p) = l1.dropWhile p ++ c :: l2 := by
  induction l1 with
  | nil => simp [List.dropWhile_cons_of_neg, hc]
  | cons a t ih =>
    by_cases ha : p a
    · rw [List.cons_append, List.dropWhile_cons_of_pos ha, List.dropWhile_cons_of_pos ha, ih]
    · rw [List.cons_append, List.dropWhile_cons_of_neg ha, List.dropWhile_cons_of_neg ha,
        List.cons_append]

theorem takeWhile_append_all (p : Char → Bool) (l1 l2 : List Char)
    (h : ∀ x ∈ l1, p x = true) : ((l1 ++ l2).takeWhile p) = l1 ++ l2.takeWhile p := by
  induction l1 with
  | nil => simp
  | cons a t ih =>
    rw [List.cons_append, List.takeWhile_cons_of_pos (h a (by simp)), List.cons_append,
      ih (fun x hx => h x (by simp [hx]))]

theorem dropWhile_append_all (p : Char → Bool) (l1 l2 : List Char)
    (h : ∀ x ∈ l1, p x = true) : ((l1 ++ l2).dropWhile p) = l2.dropWhile p := by
  induction l1 with
  | nil => simp
  | cons a t ih =>
    rw [List.cons_append, List.dropWhile_cons_of_pos (h a (by simp)),
      ih (fun x hx => h x (by simp [hx]))]

theorem takeWhile_append_of_stop (p : Char → Bool) (l1 l2 : List Char)
    (h : l1.dropWhile p ≠ []) : ((l1 ++ l2).takeWhile p) = l1.takeWhile p := by
  induction l1 with
  | nil => simp at h
  | cons a t ih =>
    by_cases ha : p a
    · rw [List.dropWhile_cons_of_pos ha] at h
      rw [List.cons_append, List.takeWhile_cons_of_pos ha, List.takeWhile_cons_of_pos ha, ih h]
    · rw [List.cons_append, List.takeWhile_cons_of_neg ha, List.takeWhile_cons_of_neg ha]

theorem dropWhile_append_of_stop (p : Char → Bool) (l1 l2 : List Char)
    (h : l1.dropWhile p ≠ []) : ((l1 ++ l2).dropWhile p) = l1.dropWhile p ++ l2 := by
  induction l1 with
  | nil => simp at h
  | cons a t ih =>
    by_cases ha : p a
    · rw [List.dropWhile_cons_of_pos ha] at h
      rw [List.cons_append, List.dropWhile_cons_of_pos ha, List.dropWhile_cons_of_pos ha, ih h]
    · rw [List.cons_append, List.dropWhile_cons_of_neg ha, List.dropWhile_cons_of_neg ha,
        List.cons_append]

theorem dropWhile_head_false (p : Char → Bool) (l : List Char) (d : Char) (t : List Char)
    (h : l.dropWhile p = d :: t) : p d = false := by
  induction l with
  | nil => cases h
  | cons a r ih =>
    by_cases ha : p a
    · rw [List.dropWhile_cons_of_pos ha] at h
      exact ih h
    · rw [List.dropWhile_cons_of_neg ha] at h
      injection h with h1 h2
      subst h1
      simpa using ha

theorem matchMarkerAt_cons_ne (c : Char) (l : List Char) (hc : ¬ c = '<') :
    matchMarkerAt (c :: l) = none := by
  unfold matchMarkerAt
  rw [if_neg]
  intro h
  rw [show (c :: l).take 6 = c :: l.take 5 from rfl] at h
  injection h with h1 _
  exact hc h1

theorem matchMarkerAt_block (n : Nat) (t : List Char) :
    matchMarkerAt (['<', '<', 'P', 'A', 'G', 'E', ' '] ++ natToDigits n ++ ['>', '>'] ++ t)
      = some (natToDigits n, t) := by
  obtain ⟨d, ds', hds⟩ := List.exists_cons_of_ne_nil (natToDigits_ne_nil n)
  have hd_digit : d.isDigit = true := natToDigits_all_digit n d (by rw [hds]; simp)
  have hd_nws : isWsChar d = false := digit_not_ws d hd_digit
  have hform : ['<', '<', 'P', 'A', 'G', 'E', ' '] ++ natToDigits n ++ ['>', '>'] ++ t
      = '<' :: '<' :: 'P' :: 'A' :: 'G' :: 'E' :: ' ' :: (natToDigits n ++ '>' :: '>' :: t) := by
    simp
  rw [hform]
  have h1 : (natToDigits n ++ '>' :: '>' :: t).takeWhile isWsChar = [] := by
    rw [hds, List.cons_append]
    exact List.takeWhile_cons_of_neg (by simp [hd_nws])
  have h2 : (natToDigits n ++ '>' :: '>' :: t).dropWhile isWsChar = natToDigits n ++ '>' :: '>' :: t := by
    conv_lhs => rw [hds, List.cons_append]
    rw [List.dropWhile_cons_of_neg (by simp [hd_nws]), ← List.cons_append, ← hds]
  have h3 : (natToDigits n ++ '>' :: '>' :: t).takeWhile Char.isDigit = natToDigits n := by
    rw [takeWhile_append_all _ _ _ (natToDigits_all_digit n),
      List.takeWhile_cons_of_neg (by decide), List.append_nil]
  have h4 : (natToDigits n ++ '>' :: '>' :: t).dropWhile Char.isDigit = '>' :: '>' :: t := by
    rw [dropWhile_append_all _ _ _ (natToDigits_all_digit n),
      List.dropWhile_cons_of_neg (by decide)]
  unfold matchMarkerAt
  rw [show ('<' :: '<' :: 'P' :: 'A' :: 'G' :: 'E' :: ' ' :: (natToDigits n ++ '>' :: '>' :: t)
      : List Char).take 6 = ['<', '<', 'P', 'A', 'G', 'E'] from rfl]
  rw [show ('<' :: '<' :: 'P' :: 'A' :: 'G' :: 'E' :: ' ' :: (natToDigits n ++ '>' :: '>' :: t)
      : List Char).drop 6 = ' ' :: (natToDigits n ++ '>' :: '>' :: t) from rfl]
  rw [if_pos rfl]
  rw [List.takeWhile_cons_of_pos (by decide), List.dropWhile_cons_of_pos (by decide)]
  rw [h1, h2, h3, h4]
  rw [if_neg (by simp), if_neg (natToDigits_ne_nil n)]
  rw [show ('>' :: '>' :: t : List Char).take 2 = ['>', '>'] from rfl, if_pos rfl]
  rfl

theorem containsMarker_cons (c : Char) (t : List Char) :
    containsMarker (c :: t) = ((matchMarkerAt (c :: t)).isSome || containsMarker t) := by
  unfold containsMarker
  rw [List.tails_cons, List.any_cons]

theorem noMarker_suffix (text s : List Char) (h : containsMarker text = false)
    (hs : s <:+ text) : matchMarkerAt s = none := by
  unfold containsMarker at h
  rw [List.any_eq_false] at h
  have hthis := h s ((List.mem_tails _ _).mpr hs)
  cases hmm : matchMarkerAt s with
  | none => rfl
  | some v => rw [hmm] at hthis; simp at hthis

theorem suffix_append_cases {α : Type} (l1 l2 s : List α) (h : s <:+ l1 ++ l2) :
    s <:+ l2 ∨ ∃ s1, s1 <:+ l1 ∧ s = s1 ++ l2 := by
  induction l1 with
  | nil => left; simpa using h
  | cons a t ih =>
    rw [List.cons_append, List.suffix_cons_iff] at h
    rcases h with rfl | h
    · right; exact ⟨a :: t, List.suffix_refl _, by rw [List.cons_append]⟩
    · rcases ih h with h2 | ⟨s1, hs1, rfl⟩
      · left; exact h2
      · right; exact ⟨s1, hs1.trans (List.suffix_cons a t), rfl⟩

/-- Central no-crossing lemma: if the marker pattern does not match at
the start of `s1`, then it does not match there either when `s1` is
followed by the blank-line joiner and the next page's marker (whose
first character `<` is neither whitespace nor a digit, so the join
cannot complete a partial match). -/
theorem matchMarkerAt_cross (s1 v : List Char) (hm : matchMarkerAt s1 = none) :
    matchMarkerAt (s1 ++ '\n' :: '\n' :: '<' :: v) = none := by
  by_cases h6 : s1.take 6 = ['<', '<', 'P', 'A', 'G', 'E']
  case neg =>
    by_cases hlen : 6 ≤ s1.length
    · have ht : (s1 ++ '\n' :: '\n' :: '<' :: v).take 6 = s1.take 6 := by
        rw [List.take_append_eq_append_take, Nat.sub_eq_zero_of_le hlen, List.take_zero,
          List.append_nil]
      unfold matchMarkerAt
      rw [if_neg (by rw [ht]; exact h6)]
    · have ht : '\n' ∈ (s1 ++ '\n' :: '\n' :: '<' :: v).take 6 := by
        rw [List.take_append_eq_append_take]
        refine List.mem_append.mpr (Or.inr ?_)
        obtain ⟨m, hm2⟩ : ∃ m, 6 - s1.length = m + 1 := ⟨6 - s1.length - 1, by omega⟩
        rw [hm2, show (('\n' :: '\n' :: '<' :: v : List Char)).take (m + 1)
          = '\n' :: ('\n' :: '<' :: v).take m from rfl]
        simp
      have hcond : ¬ ((s1 ++ '\n' :: '\n' :: '<' :: v).take 6 = ['<', '<', 'P', 'A', 'G', 'E']) := by
        intro heq
        rw [heq] at ht
        revert ht
        decide
      unfold matchMarkerAt
      rw [if_neg hcond]
  case pos =>
    have hlen6 : 6 ≤ s1.length := by
      have : (s1.take 6).length = 6 := by rw [h6]; rfl
      rw [List.length_take] at this
      omega
    have hd6 : (s1 ++ '\n' :: '\n' :: '<' :: v).drop 6 = s1.drop 6 ++ '\n' :: '\n' :: '<' :: v := by
      rw [List.drop_append_eq_append_drop, Nat.sub_eq_zero_of_le hlen6, List.drop_zero]
    have ht6 : (s1 ++ '\n' :: '\n' :: '<' :: v).take 6 = ['<', '<', 'P', 'A', 'G', 'E'] := by
      rw [List.take_append_eq_append_take, Nat.sub_eq_zero_of_le hlen6, List.take_zero,
        List.append_nil, h6]
    unfold matchMarkerAt at hm ⊢
    rw [if_pos h6] at hm
    rw [if_pos ht6, hd6]
    cases hdw : (s1.drop 6).dropWhile isWsChar with
    | nil =>
      have hall : ∀ x ∈ s1.drop 6, isWsChar x = true := (List.dropWhile_eq_nil_iff).mp hdw
      have hj : List.takeWhile isWsChar ('\n' :: '\n' :: '<' :: v) = ['\n', '\n'] := by
        rw [List.takeWhile_cons_of_pos (by decide), List.takeWhile_cons_of_pos (by decide),
          List.takeWhile_cons_of_neg (by decide)]
      have h1 : ((s1.drop 6) ++ '\n' :: '\n' :: '<' :: v).takeWhile isWsChar
          = (s1.drop 6) ++ ['\n', '\n'] := by
        rw [takeWhile_append_all _ _ _ hall, hj]
      have h2 : ((s1.drop 6) ++ '\n' :: '\n' :: '<' :: v).dropWhile isWsChar = '<' :: v := by
        rw [dropWhile_append_all _ _ _ hall,
          List.dropWhile_cons_of_pos (by decide), List.dropWhile_cons_of_pos (by decide),
          List.dropWhile_cons_of_neg (by decide)]
      rw [if_neg (by rw [h1]; simp), h2]
      rw [List.takeWhile_cons_of_neg (by decide)]
      rw [if_pos rfl]
    | cons d dtail =>
      have hstop : (s1.drop 6).dropWhile isWsChar ≠ [] := by rw [hdw]; simp
      have h1 : ((s1.drop 6) ++ '\n' :: '\n' :: '<' :: v).takeWhile isWsChar
          = (s1.drop 6).takeWhile isWsChar := takeWhile_append_of_stop _ _ _ hstop
      have h2 : ((s1.drop 6) ++ '\n' :: '\n' :: '<' :: v).dropWhile isWsChar
          = (d :: dtail) ++ '\n' :: '\n' :: '<' :: v := by
        rw [dropWhile_append_of_stop _ _ _ hstop, hdw]
      by_cases hws : (s1.drop 6).takeWhile isWsChar = []
      · rw [if_pos (by rw [h1]; exact hws)]
      · rw [if_neg (by rw [h1]; exact hws), h2]
        rw [if_neg hws, hdw] at hm
        cases hdd : (d :: dtail).dropWhile Char.isDigit with
        | nil =>
          have halld : ∀ x ∈ (d :: dtail), Char.isDigit x = true :=
            (List.dropWhile_eq_nil_iff).mp hdd
          have h3 : ((d :: dtail) ++ '\n' :: '\n' :: '<' :: v).takeWhile Char.isDigit
              = (d :: dtail) ++ [] := by
            rw [takeWhile_append_all _ _ _ halld, List.takeWhile_cons_of_neg (by decide)]
          have h4 : ((d :: dtail) ++ '\n' :: '\n' :: '<' :: v).dropWhile Char.isDigit
              = '\n' :: '\n' :: '<' :: v := by
            rw [dropWhile_append_all _ _ _ halld, List.dropWhile_cons_of_neg (by decide)]
          rw [if_neg (by rw [h3]; simp), h4]
          rw [if_neg (by
            rw [show ('\n' :: '\n' :: '<' :: v : List Char).take 2 = ['\n', '\n'] from rfl]
            decide)]
        | cons x xs =>
          have hstopd : (d :: dtail).dropWhile Char.isDigit ≠ [] := by rw [hdd]; simp
          have h3 : ((d :: dtail) ++ '\n' :: '\n' :: '<' :: v).takeWhile Char.isDigit
              = (d :: dtail).takeWhile Char.isDigit := takeWhile_append_of_stop _ _ _ hstopd
          have h4 : ((d :: dtail) ++ '\n' :: '\n' :: '<' :: v).dropWhile Char.isDigit
              = (x :: xs) ++ '\n' :: '\n' :: '<' :: v := by
            rw [dropWhile_append_of_stop _ _ _ hstopd, hdd]
          by_cases hds : (d :: dtail).takeWhile Char.isDigit = []
          · rw [if_pos (by rw [h3]; exact hds)]
          · rw [if_neg (by rw [h3]; exact hds), h4]
            rw [if_neg hds, hdd] at hm
            by_cases h2x : ((x :: xs) ++ '\n' :: '\n' :: '<' :: v).take 2 = ['>', '>']
            · exfalso
              have hx2 : (x :: xs).take 2 = ['>', '>'] := by
                cases xs with
                | nil =>
                  exfalso
                  rw [show ((x :: []) ++ '\n' :: '\n' :: '<' :: v).take 2 = [x, '\n'] from rfl] at h2x
                  simp at h2x
                | cons y ys =>
                  rw [show ((x :: y :: ys) ++ '\n' :: '\n' :: '<' :: v).take 2 = [x, y] from rfl] at h2x
                  rw [show ((x :: y :: ys) : List Char).take 2 = [x, y] from rfl]
                  exact h2x
              rw [if_pos hx2] at hm
              cases hm
            · rw [if_neg h2x]

theorem matchMarkerAt_nil : matchMarkerAt [] = none := by decide

theorem splitMarkers_nil : splitMarkers [] = ([], []) := by
  rw [splitMarkers]

theorem splitMarkers_eq_some (l ds after : List Char)
    (h : matchMarkerAt l = some (ds, after)) :
    splitMarkers l = ([], (ds, (splitMarkers after).1) :: (splitMarkers after).2) := by
  cases l with
  | nil => rw [matchMarkerAt_nil] at h; cases h
  | cons c r =>
    rw [splitMarkers]
    split
    · rename_i ds' after' heq
      rw [h] at heq
      simp only [Option.some_inj, Prod.mk.injEq] at heq
      obtain ⟨h1, h2⟩ := heq
      subst h1
      subst h2
      rfl
    · rename_i heq
      rw [h] at heq
      cases heq

theorem splitMarkers_cons_none (c : Char) (r : List Char)
    (h : matchMarkerAt (c :: r) = none) :
    splitMarkers (c :: r) = (c :: (splitMarkers r).1, (splitMarkers r).2) := by
  rw [splitMarkers]
  split
  · rename_i ds' after' heq
    rw [h] at heq
    cases heq
  · rfl

theorem splitMarkers_no_marker (t : List Char) (h : containsMarker t = false) :
    splitMarkers t = (t, []) := by
  induction t with
  | nil => exact splitMarkers_nil
  | cons c r ih =>
    rw [containsMarker_cons] at h
    rw [Bool.or_eq_false_iff] at h
    obtain ⟨h1, h2⟩ := h
    have hm : matchMarkerAt (c :: r) = none := by
      cases hmm : matchMarkerAt (c :: r) with
      | none => rfl
      | some v => rw [hmm] at h1; simp at h1
    rw [splitMarkers_cons_none c r hm, ih h2]

theorem splitMarkers_no_match (u w : List Char)
    (h : ∀ s, s ≠ [] → s <:+ u → matchMarkerAt (s ++ w) = none) :
    splitMarkers (u ++ w) = (u ++ (splitMarkers w).1, (splitMarkers w).2) := by
  induction u with
  | nil => simp
  | cons c t ih =>
    have hm : matchMarkerAt ((c :: t) ++ w) = none := h (c :: t) (by simp) (List.suffix_refl _)
    rw [List.cons_append] at hm ⊢
    rw [splitMarkers_cons_none c (t ++ w) hm]
    rw [ih (fun s hs hsuf => h s hs (hsuf.trans (List.suffix_cons c t)))]
    rw [List.cons_append]

theorem combine_pages_single (p : PageText) : combine_pages [p] = pageBlock p := rfl

theorem combine_pages_cons2 (p q : PageText) (rest : List PageText) :
    combine_pages (p :: q :: rest)
      = pageBlock p ++ ['\n', '\n'] ++ combine_pages (q :: rest) := rfl

theorem combine_pages_head (q : PageText) (r : List PageText) :
    ∃ v, combine_pages (q :: r) = '<' :: v := by
  cases r with
  | nil => exact ⟨_, rfl⟩
  | cons q2 r2 => exact ⟨_, rfl⟩

/-- The split of a combined text recovers exactly one segment per
page: its printed number and the raw text after its marker. -/
theorem splitMarkers_combine (pages : List PageText)
    (hnm : ∀ p ∈ pages, containsMarker p.text = false) :
    splitMarkers (combine_pages pages) = ([], expectedSegs pages) := by
  induction pages with
  | nil => exact splitMarkers_nil
  | cons p rest ih =>
    have hp : containsMarker p.text = false := hnm p (by simp)
    have hrest : ∀ q ∈ rest, containsMarker q.text = false := fun q hq => hnm q (by simp [hq])
    cases rest with
    | nil =>
      rw [combine_pages_single]
      have hmatch : matchMarkerAt (pageBlock p)
          = some (natToDigits p.page_num, '\n' :: p.text) := by
        unfold pageBlock
        exact matchMarkerAt_block p.page_num ('\n' :: p.text)
      rw [splitMarkers_eq_some _ _ _ hmatch]
      have hcm : containsMarker ('\n' :: p.text) = false := by
        rw [containsMarker_cons, matchMarkerAt_cons_ne '\n' p.text (by decide)]
        simpa using hp
      rw [splitMarkers_no_marker _ hcm]
      rfl
    | cons q rest2 =>
      obtain ⟨v, hv⟩ := combine_pages_head q rest2
      have hform : combine_pages (p :: q :: rest2)
          = ['<', '<', 'P', 'A', 'G', 'E', ' '] ++ natToDigits p.page_num ++ ['>', '>'] ++
            ((('\n' :: p.text) ++ ['\n', '\n']) ++ combine_pages (q :: rest2)) := by
        rw [combine_pages_cons2]
        unfold pageBlock
        simp [List.append_assoc]
      rw [hform]
      rw [splitMarkers_eq_some _ _ _ (matchMarkerAt_block p.page_num _)]
      have hsm : splitMarkers ((('\n' :: p.text) ++ ['\n', '\n']) ++ combine_pages (q :: rest2))
          = ((('\n' :: p.text) ++ ['\n', '\n']) ++
              (splitMarkers (combine_pages (q :: rest2))).1,
             (splitMarkers (combine_pages (q :: rest2))).2) := by
        refine splitMarkers_no_match (('\n' :: p.text) ++ ['\n', '\n'])
          (combine_pages (q :: rest2)) ?_
        intro s hs hsuf
        rcases suffix_append_cases _ _ _ hsuf with hsfx | ⟨s1, hs1, rfl⟩
        · rw [List.suffix_cons_iff] at hsfx
          rcases hsfx with rfl | hsfx
          · rw [hv]
            exact matchMarkerAt_cons_ne _ _ (by decide)
          · rw [List.suffix_cons_iff] at hsfx
            rcases hsfx with rfl | hsfx
            · rw [hv]
              exact matchMarkerAt_cons_ne _ _ (by decide)
            · rw [List.suffix_nil] at hsfx
              exact absurd hsfx hs
        · rw [List.suffix_cons_iff] at hs1
          rcases hs1 with rfl | hs1
          · rw [hv]
            exact matchMarkerAt_cons_ne _ _ (by decide)
          · have hm1 : matchMarkerAt s1 = none := noMarker_suffix p.text s1 hp hs1
            have hshape : (s1 ++ ['\n', '\n']) ++ combine_pages (q :: rest2)
                = s1 ++ '\n' :: '\n' :: '<' :: v := by
              rw [hv]
              simp [List.append_assoc]
            rw [hshape]
            exact matchMarkerAt_cross s1 v hm1
      rw [hsm, ih hrest]
      simp [expectedSegs]

theorem pyStrip_cons_nl (t : List Char) : pyStrip ('\n' :: t) = pyStrip t := by
  unfold pyStrip trimLeft
  rw [List.dropWhile_cons_of_pos (by decide)]

theorem trimRight_append_nn (x : List Char) : trimRight (x ++ ['\n', '\n']) = trimRight x := by
  unfold trimRight
  rw [List.reverse_append]
  rw [show ((['\n', '\n'] : List Char)).reverse ++ x.reverse
    = '\n' :: '\n' :: x.reverse from rfl]
  rw [List.dropWhile_cons_of_pos (by decide), List.dropWhile_cons_of_pos (by decide)]

theorem pyStrip_append_nn (t : List Char) : pyStrip (t ++ ['\n', '\n']) = pyStrip t := by
  unfold pyStrip
  cases h : trimLeft t with
  | nil =>
    have hall : ∀ x ∈ t, isWsChar x = true := by
      unfold trimLeft at h
      exact List.dropWhile_eq_nil_iff.mp h
    have h2 : trimLeft (t ++ ['\n', '\n']) = [] := by
      unfold trimLeft
      rw [dropWhile_append_all _ _ _ hall]
      rfl
    rw [h2]
  | cons d dt =>
    have hne : trimLeft t ≠ [] := by rw [h]; simp
    have h2 : trimLeft (t ++ ['\n', '\n']) = trimLeft t ++ ['\n', '\n'] := by
      unfold trimLeft at hne ⊢
      exact dropWhile_append_of_stop _ _ _ hne
    rw [h2, trimRight_append_nn, h]

/-- Filtering the expected segments by page range agrees with
filtering the pages themselves and trimming their texts. -/
theorem filterMap_expected (a b : Int) : ∀ pages : List PageText,
    (expectedSegs pages).filterMap (fun seg =>
      if a ≤ (digitsToNat seg.1 : Int) ∧ (digitsToNat seg.1 : Int) ≤ b then
        some (pyStrip seg.2)
      else none)
    = (pages.filter (fun p =>
        decide (a ≤ (p.page_num : Int)) && decide ((p.page_num : Int) ≤ b))).map
        (fun p => pyStrip p.text) := by
  intro pages
  induction pages with
  | nil => rfl
  | cons p rest ih =>
    cases rest with
    | nil =>
      show List.filterMap _ [(natToDigits p.page_num, '\n' :: p.text)] = _
      rw [List.filterMap_cons, List.filter_cons]
      by_cases hc : a ≤ (p.page_num : Int) ∧ (p.page_num : Int) ≤ b
      · rw [if_pos (by rw [digitsToNat_natToDigits]; exact hc)]
        rw [if_pos (by simp [hc.1, hc.2])]
        rw [pyStrip_cons_nl]
        rfl
      · rw [if_neg (by rw [digitsToNat_natToDigits]; exact hc)]
        rw [if_neg (by
          intro hcon
          simp only [Bool.and_eq_true, decide_eq_true_eq] at hcon
          exact hc hcon)]
        rfl
    | cons q rest2 =>
      show List.filterMap _
        ((natToDigits p.page_num, '\n' :: (p.text ++ ['\n', '\n'])) :: expectedSegs (q :: rest2))
        = _
      rw [List.filterMap_cons, List.filter_cons]
      by_cases hc : a ≤ (p.page_num : Int) ∧ (p.page_num : Int) ≤ b
      · rw [if_pos (by rw [digitsToNat_natToDigits]; exact hc)]
        rw [if_pos (by simp [hc.1, hc.2])]
        rw [pyStrip_cons_nl, pyStrip_append_nn, ih]
        rfl
      · rw [if_neg (by rw [digitsToNat_natToDigits]; exact hc)]
        rw [if_neg (by
          intro hcon
          simp only [Bool.and_eq_true, decide_eq_true_eq] at hcon
          exact hc hcon)]
        exact ih

/-- C2: Combiner-Slicer round-trip.  For cleaned pages with ascending
1-based page numbers whose texts contain no page-marker pattern, and
any `1 ≤ a ≤ b ≤` last page number, slicing the combined text for
`[a, b]` yields exactly the blank-line join of the trimmed texts of
the pages numbered `a..b`. -/
theorem C2_roundtrip (pages : List PageText) (a b : Int)
    (hnm : ∀ p ∈ pages, containsMarker p.text = false)
    (hasc : List.Chain' (fun p q => p.page_num < q.page_num) pages)
    (hpos : ∀ p ∈ pages, 1 ≤ p.page_num)
    (hab : 1 ≤ a ∧ a ≤ b)
    (hlast : pages.getLast?.all (fun q => decide (b ≤ (q.page_num : Int))) = true) :
    slice_pages_text (combine_pages pages) a b
      = pyJoin ['\n', '\n']
          ((pages.filter (fun p =>
            decide (a ≤ (p.page_num : Int)) && decide ((p.page_num : Int) ≤ b))).map
            (fun p => pyStrip p.text)) := by
  unfold slice_pages_text
  rw [splitMarkers_combine pages hnm]
  rw [filterMap_expected a b pages]

theorem C2_roundtrip_witness :
    ((∀ p ∈ c2pages, containsMarker p.text = false) ∧
      (1 : Int) ≤ 1 ∧ (1 : Int) ≤ 2) ∧
    slice_pages_text (combine_pages c2pages) 1 2
      = pyJoin ['\n', '\n']
          ((c2pages.filter (fun p =>
            decide ((1 : Int) ≤ (p.page_num : Int)) && decide ((p.page_num : Int) ≤ (2 : Int)))).map
            (fun p => pyStrip p.text)) :=
  ⟨⟨by decide, by decide, by decide⟩,
    C2_roundtrip c2pages 1 2 (by decide)
      (by simp [c2pages, List.chain'_cons]) (by decide) ⟨by decide, by decide⟩
      (by decide)⟩

/-! ## Response parser and stance theorems -/

/-- C4: the source's fence regex is the six-character literal
`"``````"` with no capture group, so a Markdown-fenced response never
has its fence contents used as the search candidate; the balanced scan
runs over the whole stripped string instead.  On the failing input the
code returns the object from the leading prose, `{"x": 2}`, while the
spec's fence-contents candidate yields `{"a": 1}`. -/
theorem C4_fence_not_used :
    parse_json_str c4failing = some (Json.obj [(['x'], Json.num 2)]) ∧
    (match spec_fence_contents (pyStrip c4failing) with
     | some cand =>
       (match scanFrom cand with
        | some frag => loads frag
        | none => loads cand)
     | none => none) = some (Json.obj [(['a'], Json.num 1)]) ∧
    ¬ (Json.obj [(['x'], Json.num 2)] = Json.obj [(['a'], Json.num 1)]) := by
  refine ⟨by rfl, by rfl, by simp⟩

theorem lookupKey_dictInsert_self (kvs : List (List Char × Json)) (k : List Char) (v : Json) :
    lookupKey (dictInsert kvs k v) k = some v := by
  induction kvs with
  | nil => simp [dictInsert, lookupKey]
  | cons kv rest ih =>
    obtain ⟨k2, v2⟩ := kv
    by_cases h : k2 = k
    · subst h; simp [dictInsert, lookupKey]
    · simp only [dictInsert, if_neg h, lookupKey]
      exact ih

theorem lookupKey_dictInsert_other (kvs : List (List Char × Json)) (k : List Char) (v : Json)
    (k2 : List Char) (h : ¬ k = k2) :
    lookupKey (dictInsert kvs k v) k2 = lookupKey kvs k2 := by
  induction kvs with
  | nil =>
    simp only [dictInsert, lookupKey]
    rw [if_neg h]
  | cons kv rest ih =>
    obtain ⟨k3, v3⟩ := kv
    by_cases h3 : k3 = k
    · subst h3
      simp only [dictInsert, if_pos rfl, lookupKey]
      rw [if_neg h, if_neg h]
    · simp only [dictInsert, if_neg h3, lookupKey]
      by_cases h32 : k3 = k2
      · rw [if_pos h32, if_pos h32]
      · rw [if_neg h32, if_neg h32]
        exact ih

theorem lookupKey_fillKey_self (kvs : List (List Char × Json)) (k : List Char) :
    ∃ xs, lookupKey (fillKey kvs k) k = some (Json.arr xs) := by
  unfold fillKey
  cases hl : lookupKey kvs k with
  | none => rw [if_neg (by simp [isArr])]; exact ⟨[], lookupKey_dictInsert_self kvs k _⟩
  | some j =>
    cases j with
    | arr xs => rw [if_pos (by simp [isArr])]; exact ⟨xs, hl⟩
    | null => rw [if_neg (by simp [isArr])]; exact ⟨[], lookupKey_dictInsert_self kvs k _⟩
    | bool b => rw [if_neg (by simp [isArr])]; exact ⟨[], lookupKey_dictInsert_self kvs k _⟩
    | num n => rw [if_neg (by simp [isArr])]; exact ⟨[], lookupKey_dictInsert_self kvs k _⟩
    | str s => rw [if_neg (by simp [isArr])]; exact ⟨[], lookupKey_dictInsert_self kvs k _⟩
    | obj o => rw [if_neg (by simp [isArr])]; exact ⟨[], lookupKey_dictInsert_self kvs k _⟩

theorem lookupKey_fillKey_other (kvs : List (List Char × Json)) (k k2 : List Char)
    (h : ¬ k = k2) : lookupKey (fillKey kvs k) k2 = lookupKey kvs k2 := by
  unfold fillKey
  by_cases ha : isArr (lookupKey kvs k) = true
  · rw [if_pos ha]
  · rw [if_neg ha]
    exact lookupKey_dictInsert_other kvs k _ k2 h

theorem arr_after_fillKey (kvs : List (List Char × Json)) (k k2 : List Char)
    (h : ∃ xs, lookupKey kvs k2 = some (Json.arr xs)) :
    ∃ xs, lookupKey (fillKey kvs k) k2 = some (Json.arr xs) := by
  by_cases hk : k = k2
  · subst hk; exact lookupKey_fillKey_self kvs k
  · rw [lookupKey_fillKey_other kvs k k2 hk]; exact h

theorem lookupKey_setDefault_other (kvs : List (List Char × Json)) (k : List Char) (v : Json)
    (k2 : List Char) (h : ¬ k = k2) :
    lookupKey (setDefault kvs k v) k2 = lookupKey kvs k2 := by
  unfold setDefault
  cases hl : lookupKey kvs k with
  | some j => rfl
  | none => exact lookupKey_dictInsert_other kvs k v k2 h

/-- C7: for every AI response string, the stance result is a record in
which all four category keys are present and bound to JSON lists —
any missing or non-list category has been replaced by the empty list —
and when the response cannot be parsed at all the result is the
default record (all categories empty, summary noting the parse
failure). -/
theorem C7_stance_categories (title out : List Char) :
    (∀ k ∈ [hedgesKey, boostersKey, attitudeKey, selfKey],
      ∃ xs, lookupKey (objKvs (ai_analyse_stance title out)) k = some (Json.arr xs)) ∧
    (parse_json_str out = none → ai_analyse_stance title out = defaultStance title) := by
  constructor
  · intro k hk
    unfold ai_analyse_stance
    cases hp : parse_json_str out with
    | none =>
      fin_cases hk <;> exact ⟨[], rfl⟩
    | some j =>
      cases j with
      | obj kvs =>
        have h4 : ∃ xs, lookupKey
            (fillKey (fillKey (fillKey (fillKey kvs hedgesKey) boostersKey) attitudeKey) selfKey)
            k = some (Json.arr xs) := by
          fin_cases hk
          · exact arr_after_fillKey _ _ _ (arr_after_fillKey _ _ _ (arr_after_fillKey _ _ _
              (lookupKey_fillKey_self kvs hedgesKey)))
          · exact arr_after_fillKey _ _ _ (arr_after_fillKey _ _ _
              (lookupKey_fillKey_self _ boostersKey))
          · exact arr_after_fillKey _ _ _ (lookupKey_fillKey_self _ attitudeKey)
          · exact lookupKey_fillKey_self _ selfKey
        obtain ⟨xs, hxs⟩ := h4
        refine ⟨xs, ?_⟩
        show lookupKey (setDefault (setDefault _ sectionKey _) summaryKey _) k = _
        rw [lookupKey_setDefault_other _ _ _ _ (by fin_cases hk <;> decide)]
        rw [lookupKey_setDefault_other _ _ _ _ (by fin_cases hk <;> decide)]
        exact hxs
      | null => fin_cases hk <;> exact ⟨[], rfl⟩
      | bool b => fin_cases hk <;> exact ⟨[], rfl⟩
      | num n => fin_cases hk <;> exact ⟨[], rfl⟩
      | str s => fin_cases hk <;> exact ⟨[], rfl⟩
      | arr xs => fin_cases hk <;> exact ⟨[], rfl⟩
  · intro hp
    unfold ai_analyse_stance
    rw [hp]

theorem C7_stance_categories_witness :
    (∃ xs, lookupKey (objKvs (ai_analyse_stance ['T'] c7garbage)) hedgesKey
      = some (Json.arr xs)) ∧
    ai_analyse_stance ['T'] c7garbage = defaultStance ['T'] :=
  ⟨(C7_stance_categories ['T'] c7garbage).1 hedgesKey (by simp),
    (C7_stance_categories ['T'] c7garbage).2 (by rfl)⟩

/-- C3 counterexample: a 7300-character text with a single paragraph
break at offset 7250 is split into 2 chunks, exceeding the claimed
bound `ceil(7300 / (24000 - 1200)) = 1`. -/
theorem C3_counterexample :
    (chunk_text_for_model txtC3 24000 1200).map List.length = some 2 ∧
    (txtC3.length + (24000 - 1200) - 1) / (24000 - 1200) = 1 := by
  have hocc : nnOccs txtC3 0 = [7250] := by
    unfold txtC3
    rw [nnOccs_append_ne _ _ (fun c hc => by rw [List.eq_of_mem_replicate hc]; decide) 0]
    rw [show (0 + (List.replicate 7250 'a').length) = 7250 from by
      rw [List.length_replicate]]
    rw [show nnOccs ('\n' :: '\n' :: List.replicate 48 'a') 7250
        = 7250 :: nnOccs ('\n' :: List.replicate 48 'a') (7250 + 1) from by
      rw [nnOccs, if_pos ⟨rfl, by simp⟩]]
    rw [show nnOccs ('\n' :: List.replicate 48 'a') (7250 + 1)
        = nnOccs (List.replicate 48 'a') (7250 + 1 + 1) from by
      rw [nnOccs, if_neg (by simp [head?_replicate])]]
    rw [nnOccs_nil_of_ne _ (fun c hc => by rw [List.eq_of_mem_replicate hc]; decide)]
  have hlen : txtC3.length = 7300 := by
    unfold txtC3
    rw [List.length_append, List.length_replicate]
    rfl
  have hrf0 : rfindNN txtC3 0 (min (0 + 24000) 7300) = some 7250 := by
    unfold rfindNN
    rw [hocc, show min (0 + 24000) 7300 = 7300 from by omega]
    decide
  have hrf1 : rfindNN txtC3 6050 (min (6050 + 24000) 7300) = some 7250 := by
    unfold rfindNN
    rw [hocc, show min (6050 + 24000) 7300 = 7300 from by omega]
    decide
  have hb0 : chunkBoundary txtC3 7300 24000 0 = 7250 := by
    simp only [chunkBoundary, hrf0]
    rw [if_neg (by norm_num : ¬ (7250 : Nat) ≤ 0 + 3 * 24000 / 10)]
  have hb1 : chunkBoundary txtC3 7300 24000 6050 = 7300 := by
    simp only [chunkBoundary, hrf1]
    rw [if_pos (by norm_num : (7250 : Nat) ≤ 6050 + 3 * 24000 / 10)]
    omega
  have inner : chunkSpansLoop txtC3 7300 24000 1200 (7300 + 1 - 1) (7250 - 1200) =
      some [(6050, 7300)] := by
    rw [show (7300 + 1 - 1 : Nat) = 7300 from rfl, show (7250 - 1200 : Nat) = 6050 from rfl]
    rw [chunkSpansLoop_pos _ _ _ _ _ _ (by norm_num)]
    rw [if_pos (by norm_num : (6050 : Nat) < 7300), hb1, if_pos rfl]
  have main : chunkSpansLoop txtC3 7300 24000 1200 (7300 + 1) 0 =
      some [(0, 7250), (6050, 7300)] := by
    rw [chunkSpansLoop_pos _ _ _ _ _ _ (by norm_num)]
    rw [if_pos (by norm_num : (0 : Nat) < 7300), hb0]
    rw [if_neg (by norm_num : ¬ (7250 : Nat) = 7300)]
    rw [inner]
  have hspans : chunkSpans txtC3 24000 1200 = some [(0, 7250), (6050, 7300)] := by
    unfold chunkSpans
    rw [hlen]
    exact main
  constructor
  · rw [show chunk_text_for_model txtC3 24000 1200
        = (chunkSpans txtC3 24000 1200).map
            (List.map (fun sb => ((txtC3.drop sb.1).take (sb.2 - sb.1)))) from rfl]
    rw [hspans]
    rfl
  · rw [hlen]

/-- Keys collected by the first-occurrence fold are the initial keys
plus the scanned signatures. -/
theorem mem_foldl_occAdd (l : List (List Char)) (O : List (List Char)) (k : List Char) :
    k ∈ l.foldl occAdd O ↔ k ∈ O ∨ k ∈ l := by
  induction l generalizing O with
  | nil => simp
  | cons s t ih =>
    rw [List.foldl_cons, ih]
    unfold occAdd
    by_cases hs : s ∈ O
    · rw [if_pos hs]
      simp only [List.mem_cons]
      constructor
      · rintro (h | h)
        · exact Or.inl h
        · exact Or.inr (Or.inr h)
      · rintro (h | rfl | h)
        · exact Or.inl h
        · exact Or.inl hs
        · exact Or.inr h
    · rw [if_neg hs]
      simp only [List.mem_append, List.mem_singleton, List.mem_cons]
      tauto

/-- The first-occurrence fold keeps its key list duplicate-free. -/
theorem nodup_foldl_occAdd (l : List (List Char)) (O : List (List Char)) (hO : O.Nodup) :
    (l.foldl occAdd O).Nodup := by
  induction l generalizing O with
  | nil => exact hO
  | cons s t ih =>
    rw [List.foldl_cons]
    apply ih
    unfold occAdd
    by_cases hs : s ∈ O
    · rw [if_pos hs]; exact hO
    · rw [if_neg hs]
      refine List.Nodup.append hO (List.nodup_singleton s) ?_
      intro a ha hb
      rw [List.mem_singleton] at hb
      exact hs (hb ▸ ha)

/-- A signature occurs in `firstOccs` exactly when it occurs in the
list. -/
theorem mem_firstOccs (l : List (List Char)) (k : List Char) :
    k ∈ firstOccs l ↔ k ∈ l := by
  have h := mem_foldl_occAdd l [] k
  simpa [firstOccs] using h

/-- A nonempty signature list has nonempty first occurrences. -/
theorem firstOccs_ne_nil (l : List (List Char)) (hne : ¬ l = []) : ¬ firstOccs l = [] := by
  obtain ⟨a, t, rfl⟩ := List.exists_cons_of_ne_nil hne
  intro h
  have ha : a ∈ firstOccs (a :: t) := (mem_firstOccs _ _).mpr (List.mem_cons_self a t)
  rw [h] at ha
  exact absurd ha (List.not_mem_nil a)

/-- Incrementing a key already present in a duplicate-free counter
bumps exactly that key's count. -/
theorem tallyAdd_map_mem (O : List (List Char)) (g : List Char → Nat) (s : List Char)
    (hO : O.Nodup) (hs : s ∈ O) :
    tallyAdd (O.map (fun k => (k, g k))) s =
      O.map (fun k => (k, if k = s then g k + 1 else g k)) := by
  induction O with
  | nil => cases hs
  | cons a t ih =>
    rw [List.map_cons, List.map_cons]
    show (if a = s then (a, g a + 1) :: t.map (fun k => (k, g k))
          else (a, g a) :: tallyAdd (t.map (fun k => (k, g k))) s) = _
    by_cases ha : a = s
    · subst ha
      rw [if_pos rfl, if_pos rfl]
      congr 1
      apply List.map_congr_left
      intro k hk
      have hks : ¬ k = a := fun h => (List.nodup_cons.mp hO).1 (h ▸ hk)
      rw [if_neg hks]
    · rw [if_neg ha, if_neg ha]
      congr 1
      have hst : s ∈ t := by
        rcases List.mem_cons.mp hs with h | h
        · exact absurd h.symm ha
        · exact h
      exact ih (List.nodup_cons.mp hO).2 hst

/-- Tallying a fresh key appends it with count one. -/
theorem tallyAdd_map_not_mem (O : List (List Char)) (g : List Char → Nat) (s : List Char)
    (hs : ¬ s ∈ O) :
    tallyAdd (O.map (fun k => (k, g k))) s =
      (O ++ [s]).map (fun k => (k, if k = s then 1 else g k)) := by
  induction O with
  | nil => simp [tallyAdd]
  | cons a t ih =>
    have has : ¬ a = s := fun h => hs (h ▸ List.mem_cons_self a t)
    have hst : ¬ s ∈ t := fun h => hs (List.mem_cons_of_mem a h)
    rw [List.map_cons]
    show (if a = s then (a, g a + 1) :: t.map (fun k => (k, g k))
          else (a, g a) :: tallyAdd (t.map (fun k => (k, g k))) s) = _
    rw [if_neg has, List.cons_append, List.map_cons, if_neg has, ih hst]

/-- The tally fold over a duplicate-free seeded counter is the map of
accumulated counts over the keys in first-occurrence order. -/
theorem foldl_tallyAdd_map (l : List (List Char)) (O : List (List Char))
    (g : List Char → Nat) (hO : O.Nodup) :
    l.foldl tallyAdd (O.map (fun k => (k, g k))) =
      (l.foldl occAdd O).map
        (fun k => (k, if k ∈ O then g k + List.count k l else List.count k l)) := by
  induction l generalizing O g with
  | nil =>
    rw [List.foldl_nil, List.foldl_nil]
    apply List.map_congr_left
    intro k hk
    rw [if_pos hk, List.count_nil, Nat.add_zero]
  | cons s t ih =>
    rw [List.foldl_cons, List.foldl_cons]
    by_cases hs : s ∈ O
    · rw [tallyAdd_map_mem O g s hO hs]
      rw [show occAdd O s = O from by unfold occAdd; rw [if_pos hs]]
      rw [ih O _ hO]
      apply List.map_congr_left
      intro k hk
      by_cases hkO : k ∈ O
      · rw [if_pos hkO, if_pos hkO]
        by_cases hks : k = s
        · subst hks
          rw [if_pos rfl, List.count_cons_self]
          exact congrArg (fun n => (k, n)) (by omega)
        · rw [if_neg hks, List.count_cons_of_ne (fun h => hks h)]
      · rw [if_neg hkO, if_neg hkO]
        have hks : ¬ k = s := fun h => hkO (h ▸ hs)
        rw [List.count_cons_of_ne (fun h => hks h)]
    · rw [tallyAdd_map_not_mem O g s hs]
      rw [show occAdd O s = O ++ [s] from by unfold occAdd; rw [if_neg hs]]
      have hO' : (O ++ [s]).Nodup := by
        refine List.Nodup.append hO (List.nodup_singleton s) ?_
        intro a ha hb
        rw [List.mem_singleton] at hb
        exact hs (hb ▸ ha)
      rw [ih (O ++ [s]) _ hO']
      apply List.map_congr_left
      intro k hk
      by_cases hks : k = s
      · subst hks
        rw [if_pos (List.mem_append_right O (List.mem_singleton_self k)),
          if_pos rfl, if_neg hs, List.count_cons_self]
        exact congrArg (fun n => (k, n)) (by omega)
      · have hmem : k ∈ O ++ [s] ↔ k ∈ O := by
          rw [List.mem_append, List.mem_singleton]
          exact ⟨fun h => h.resolve_right hks, Or.inl⟩
        by_cases hkO : k ∈ O
        · rw [if_pos (hmem.mpr hkO), if_pos hkO, if_neg hks,
            List.count_cons_of_ne (fun h => hks h)]
        · rw [if_neg (fun h => hkO (hmem.mp h)), if_neg hkO,
            List.count_cons_of_ne (fun h => hks h)]

/-- The `Counter` of a signature list pairs each key, in
first-occurrence order, with its number of occurrences. -/
theorem tally_eq_map (l : List (List Char)) :
    tally l = (firstOccs l).map (fun k => (k, List.count k l)) := by
  have h := foldl_tallyAdd_map l [] (fun _ => 0) List.nodup_nil
  simpa [tally, firstOccs] using h

/-- The `most_common(1)` scan over counts `f` picks an element of the
scanned keys attaining the maximal count, and every key strictly
before it in scan order has a strictly smaller count. -/
theorem mostCommonGo_spec (f : List Char → Nat) (K : List (List Char)) (bs : List Char) :
    mostCommonGo bs (f bs) (K.map (fun k => (k, f k))) ∈ bs :: K ∧
    (∀ s ∈ bs :: K, f s ≤ f (mostCommonGo bs (f bs) (K.map (fun k => (k, f k))))) ∧
    ∃ u w, bs :: K = u ++ mostCommonGo bs (f bs) (K.map (fun k => (k, f k))) :: w ∧
      ∀ s ∈ u, f s < f (mostCommonGo bs (f bs) (K.map (fun k => (k, f k)))) := by
  induction K generalizing bs with
  | nil =>
    refine ⟨List.mem_cons_self bs [], ?_, [], [], rfl, ?_⟩
    · intro s hsm
      rcases List.mem_cons.mp hsm with rfl | h
      · exact Nat.le_refl _
      · cases h
    · intro s hsm
      cases hsm
  | cons k t ih =>
    rw [List.map_cons]
    show mostCommonGo bs (f bs) ((k, f k) :: t.map (fun x => (x, f x))) ∈ _ ∧ _
    rw [show mostCommonGo bs (f bs) ((k, f k) :: t.map (fun x => (x, f x)))
        = if f bs < f k then mostCommonGo k (f k) (t.map (fun x => (x, f x)))
          else mostCommonGo bs (f bs) (t.map (fun x => (x, f x))) from rfl]
    by_cases hcmp : f bs < f k
    · rw [if_pos hcmp]
      obtain ⟨hm, hmax, u, w, hdec, hlt⟩ := ih k
      refine ⟨List.mem_cons_of_mem bs hm, ?_, bs :: u, w, ?_, ?_⟩
      · intro s hsm
        rcases List.mem_cons.mp hsm with rfl | h
        · exact Nat.le_trans (Nat.le_of_lt hcmp) (hmax k (List.mem_cons_self k t))
        · exact hmax s h
      · rw [List.cons_append, ← hdec]
      · intro s hsm
        rcases List.mem_cons.mp hsm with rfl | h
        · exact Nat.lt_of_lt_of_le hcmp (hmax k (List.mem_cons_self k t))
        · exact hlt s h
    · rw [if_neg hcmp]
      obtain ⟨hm, hmax, u, w, hdec, hlt⟩ := ih bs
      have hkle : f k ≤ f bs := Nat.le_of_not_lt hcmp
      refine ⟨?_, ?_, ?_⟩
      · rcases List.mem_cons.mp hm with h | h
        · rw [h]; exact List.mem_cons_self bs (k :: t)
        · exact List.mem_cons_of_mem bs (List.mem_cons_of_mem k h)
      · intro s hsm
        rcases List.mem_cons.mp hsm with rfl | h
        · exact hmax s (List.mem_cons_self s t)
        · rcases List.mem_cons.mp h with rfl | h2
          · exact Nat.le_trans hkle (hmax bs (List.mem_cons_self bs t))
          · exact hmax s (List.mem_cons_of_mem bs h2)
      · match u, hdec with
        | [], hdec =>
          rw [List.nil_append] at hdec
          refine ⟨[], k :: t, ?_, ?_⟩
          · rw [List.nil_append, ← (List.cons.injEq _ _ _ _).mp hdec |>.1]
          · intro s hsm
            cases hsm
        | a :: u2, hdec =>
          rw [List.cons_append] at hdec
          have ha : bs = a := ((List.cons.injEq _ _ _ _).mp hdec).1
          have ht : t = u2 ++ mostCommonGo bs (f bs) (t.map (fun x => (x, f x))) :: w :=
            ((List.cons.injEq _ _ _ _).mp hdec).2
          have hbslt : f bs < f (mostCommonGo bs (f bs) (t.map (fun x => (x, f x)))) := by
            have hx := hlt a (List.mem_cons_self a u2)
            rw [← ha] at hx
            exact hx
          refine ⟨bs :: k :: u2, w, ?_, ?_⟩
          · rw [List.cons_append, List.cons_append, ← ht]
          · intro s hsm
            rcases List.mem_cons.mp hsm with rfl | h
            · exact hbslt
            · rcases List.mem_cons.mp h with rfl | h2
              · exact Nat.lt_of_le_of_lt hkle hbslt
              · have := hlt s (List.mem_cons_of_mem a h2)
                exact this

/-- `most_common(1)` of the tally of a nonempty signature list is a
signature of maximal multiplicity, the first such in first-occurrence
order. -/
theorem mostCommon1_spec (l : List (List Char)) (hne : ¬ l = []) :
    mostCommon1 (tally l) ∈ l ∧
    (∀ s ∈ l, List.count s l ≤ List.count (mostCommon1 (tally l)) l) ∧
    ∃ u w, firstOccs l = u ++ mostCommon1 (tally l) :: w ∧
      ∀ s ∈ u, List.count s l < List.count (mostCommon1 (tally l)) l := by
  rw [tally_eq_map]
  obtain ⟨k, K, hK⟩ := List.exists_cons_of_ne_nil (firstOccs_ne_nil l hne)
  rw [hK, List.map_cons]
  rw [show mostCommon1 ((fun k => (k, List.count k l)) k
        :: K.map (fun k => (k, List.count k l)))
      = mostCommonGo k (List.count k l) (K.map (fun k => (k, List.count k l))) from rfl]
  obtain ⟨hm, hmax, u, w, hdec, hlt⟩ := mostCommonGo_spec (fun s => List.count s l) K k
  have hsub : ∀ s, s ∈ k :: K → s ∈ l := by
    intro s hs
    rw [← hK] at hs
    exact (mem_firstOccs l s).mp hs
  refine ⟨hsub _ hm, ?_, u, w, ?_, hlt⟩
  · intro s hs
    have : s ∈ k :: K := by
      rw [← hK]
      exact (mem_firstOccs l s).mpr hs
    exact hmax s this
  · exact hdec

/-- A top signature delivered to the counter is nonempty. -/
theorem topSig_some_ne_nil (n : Nat) (p : PageText) (s : List Char)
    (h : topSig n p = some s) : ¬ s = [] := by
  unfold topSig at h
  split at h
  · cases h
  · split at h
    · cases h
    · rename_i hj
      rw [Option.some.injEq] at h
      rw [← h]
      exact hj

/-- A bottom signature delivered to the counter is nonempty. -/
theorem botSig_some_ne_nil (n : Nat) (p : PageText) (s : List Char)
    (h : botSig n p = some s) : ¬ s = [] := by
  unfold botSig at h
  split at h
  · cases h
  · split at h
    · split at h
      · cases h
      · rename_i hj
        rw [Option.some.injEq] at h
        rw [← h]
        exact hj
    · cases h

/-- The candidate published by the detector on a nonempty signature
list of nonempty signatures: the escape of a maximal-count signature,
first in first-occurrence order among maximal ones. -/
theorem detector_pick (sigs : List (List Char)) (hne : ¬ sigs = [])
    (hnn : ∀ s ∈ sigs, ¬ s = []) :
    ∃ h, h ∈ sigs ∧
      (if mostCommon1 (tally sigs) = [] then ([] : List Char)
        else reEscape (mostCommon1 (tally sigs))) = reEscape h ∧
      (∀ s ∈ sigs, List.count s sigs ≤ List.count h sigs) ∧
      ∃ u w, firstOccs sigs = u ++ h :: w ∧
        ∀ s ∈ u, List.count s sigs < List.count h sigs := by
  obtain ⟨hm, hmax, u, w, hdec, hlt⟩ := mostCommon1_spec sigs hne
  refine ⟨mostCommon1 (tally sigs), hm, ?_, hmax, u, w, hdec, hlt⟩
  rw [if_neg (hnn _ hm)]

/-- C9 (amended): when at least one page yields a top (resp. bottom)
signature, `detect_repeated_headers_footers` publishes as header
(resp. footer) the `re.escape` of a signature of maximal multiplicity,
the first such in first-encountered order; the tallied bottom
signatures are those of pages with at least `bottom_n_lines` non-blank
lines (shorter pages are skipped), unlike the claim's "last N
non-blank lines" reading, and the published string is escaped rather
than the raw signature. -/
theorem C9_detector_amended (pages : List PageText) (tn bn : Nat)
    (htop : ¬ pages.filterMap (topSig tn) = [])
    (hbot : ¬ pages.filterMap (botSig bn) = []) :
    (∃ h, h ∈ pages.filterMap (topSig tn) ∧
      (detect_repeated_headers_footers pages tn bn).header = reEscape h ∧
      (∀ s ∈ pages.filterMap (topSig tn),
        List.count s (pages.filterMap (topSig tn))
          ≤ List.count h (pages.filterMap (topSig tn))) ∧
      ∃ u w, firstOccs (pages.filterMap (topSig tn)) = u ++ h :: w ∧
        ∀ s ∈ u, List.count s (pages.filterMap (topSig tn))
          < List.count h (pages.filterMap (topSig tn))) ∧
    (∃ h, h ∈ pages.filterMap (botSig bn) ∧
      (detect_repeated_headers_footers pages tn bn).footer = reEscape h ∧
      (∀ s ∈ pages.filterMap (botSig bn),
        List.count s (pages.filterMap (botSig bn))
          ≤ List.count h (pages.filterMap (botSig bn))) ∧
      ∃ u w, firstOccs (pages.filterMap (botSig bn)) = u ++ h :: w ∧
        ∀ s ∈ u, List.count s (pages.filterMap (botSig bn))
          < List.count h (pages.filterMap (botSig bn))) := by
  constructor
  · have hp := detector_pick (pages.filterMap (topSig tn)) htop
      (fun s hs => by
        obtain ⟨p, _, hps⟩ := List.mem_filterMap.mp hs
        exact topSig_some_ne_nil tn p s hps)
    exact hp
  · have hp := detector_pick (pages.filterMap (botSig bn)) hbot
      (fun s hs => by
        obtain ⟨p, _, hps⟩ := List.mem_filterMap.mp hs
        exact botSig_some_ne_nil bn p s hps)
    exact hp

/-- Witness for C9's amended theorem at the three concrete pages of
`c9pages`. -/
theorem C9_detector_amended_witness :
    ∃ h, h ∈ c9pages.filterMap (botSig 2) ∧
      (detect_repeated_headers_footers c9pages 2 2).footer = reEscape h ∧
      (∀ s ∈ c9pages.filterMap (botSig 2),
        List.count s (c9pages.filterMap (botSig 2))
          ≤ List.count h (c9pages.filterMap (botSig 2))) ∧
      ∃ u w, firstOccs (c9pages.filterMap (botSig 2)) = u ++ h :: w ∧
        ∀ s ∈ u, List.count s (c9pages.filterMap (botSig 2))
          < List.count h (c9pages.filterMap (botSig 2)) :=
  (C9_detector_amended c9pages 2 2 (by decide) (by decide)).2

/-- C9 counterexample: on two one-line pages reading "x" and a
two-line page "a\nb", the code's footer is the escape of "a b" (the
one-line pages are skipped by the `len(lines) >= bottom_n_lines`
guard), while the claim's "most frequent bottom signature where a
bottom signature is the last N non-blank lines joined by a space"
gives "x". -/
theorem C9_counterexample :
    (detect_repeated_headers_footers c9pages 2 2).footer = ['a', '\\', ' ', 'b'] ∧
    mostCommon1 (tally (c9pages.filterMap (claimBotSig 2))) = ['x'] ∧
    ¬ (detect_repeated_headers_footers c9pages 2 2).footer
        = mostCommon1 (tally (c9pages.filterMap (claimBotSig 2))) := by
  refine ⟨by decide, by decide, by decide⟩

/-- C10: a line whose stripped form is nonempty and consists only of
Roman-numeral letters (in either case, in any order) matches the
page-number pattern, fails the cleaner's keep test under every header
and footer pattern, and therefore never survives the per-page line
filter that `remove_headers_footers_and_numbers` applies. -/
theorem C10_roman_word_removed (patterns : HeaderFooter) (p : PageText) (ln : List Char)
    (hne : ¬ pyStrip ln = [])
    (hrom : (pyStrip ln).all isRomanChar = true) :
    page_num_line (pyStrip ln) = true ∧
    keepLine patterns ln = false ∧
    remove_headers_footers_and_numbers [p] patterns =
      [⟨p.page_num, pyJoin ['\n'] ((splitlines p.text).filter (keepLine patterns))⟩] ∧
    ¬ ln ∈ (splitlines p.text).filter (keepLine patterns) := by
  have hpn : page_num_line (pyStrip ln) = true := by
    rw [page_num_line, hrom]
    simp [hne]
  have hkeep : keepLine patterns ln = false := by
    unfold keepLine
    rw [if_neg hne]
    split
    · rfl
    · split
      · rfl
      · rw [hpn]
        rfl
  refine ⟨hpn, hkeep, rfl, ?_⟩
  intro hmem
  have hk := (List.mem_filter.mp hmem).2
  rw [hkeep] at hk
  cases hk

/-- Witness for C10: the content line "civil" of a three-line page is
deleted by the cleaner even with both boilerplate patterns empty. -/
theorem C10_roman_word_removed_witness :
    page_num_line (pyStrip ("civil".toList)) = true ∧
    keepLine ⟨[], []⟩ ("civil".toList) = false ∧
    remove_headers_footers_and_numbers [⟨7, "keep\ncivil\nok".toList⟩] ⟨[], []⟩ =
      [⟨7, pyJoin ['\n'] ((splitlines ("keep\ncivil\nok".toList)).filter (keepLine ⟨[], []⟩))⟩] ∧
    ¬ "civil".toList ∈ (splitlines ("keep\ncivil\nok".toList)).filter (keepLine ⟨[], []⟩) :=
  C10_roman_word_removed ⟨[], []⟩ ⟨7, "keep\ncivil\nok".toList⟩ ("civil".toList)
    (by decide) (by decide)

end AIStance
